import Mathlib

/-!
Verification of the unified-diff parsing and analysis engine
(`parseDiff`, `analyzeChanges`, `extractChangedCodeWithContext`,
`findBestLineForComment`) of the free-ai-bitbucket-reviewer repository.

The JavaScript source is embedded shallowly: lines are `List Char`
(the input string is split on newline after carriage returns are removed,
mirroring `diffText.replace(/\r/g, '').split('\n')`), the mutable
`currentFile` / `currentHunk` cursors become an explicit state record,
and the regular expressions of the source are translated into executable
character-list matchers with the same matching semantics.

Definitions come first (the embedding of the source and the
specification-side characterizations), followed by the lemmas and the
claim theorems with their witnesses.
-/

/-- `startsWithL pat l` is JavaScript `l.startsWith(pat)` on character lists. -/
def startsWithL : List Char → List Char → Bool
  | [], _ => true
  | _ :: _, [] => false
  | p :: ps, c :: cs => p == c && startsWithL ps cs

/-- `endsWithL suf l` is JavaScript `l.endsWith(suf)`. -/
def endsWithL (suf l : List Char) : Bool :=
  startsWithL suf.reverse l.reverse

/-- JavaScript `String.prototype.trim()` on a character list (both ends). -/
def trimChars (cs : List Char) : List Char :=
  ((cs.dropWhile Char.isWhitespace).reverse.dropWhile Char.isWhitespace).reverse

/-- `text.split('\n')` on character lists. -/
def splitNl : List Char → List (List Char)
  | [] => [[]]
  | c :: rest =>
    if c = '\n' then [] :: splitNl rest
    else
      match splitNl rest with
      | [] => [[c]]
      | l :: ls => (c :: l) :: ls

/-- Maximal leading run of decimal digits, with the remainder. -/
def digitsRun : List Char → List Char × List Char
  | [] => ([], [])
  | c :: cs =>
    if c.isDigit then
      let (d, r) := digitsRun cs
      (c :: d, r)
    else ([], c :: cs)

/-- `parseInt` on a non-empty run of decimal digits. -/
def natOfDigits (ds : List Char) : Nat :=
  ds.foldl (fun n c => 10 * n + (c.toNat - 48)) 0

/-- Split at the first occurrence of `sep`: lazy-group regex matching
`(.*?)sep(rest)`. Returns `none` when `sep` does not occur. -/
def splitFirst (sep : List Char) : List Char → Option (List Char × List Char)
  | [] => if startsWithL sep [] then some ([], []) else none
  | c :: cs =>
    if startsWithL sep (c :: cs) then some ([], List.drop sep.length (c :: cs))
    else (splitFirst sep cs).map (fun p => (c :: p.1, p.2))

/-- Update the element at index `i` in place (out-of-range is a no-op);
models JavaScript mutation of one element of an array. -/
def updateAt : List α → Nat → (α → α) → List α
  | [], _, _ => []
  | x :: xs, 0, f => f x :: xs
  | x :: xs, i + 1, f => x :: updateAt xs i f

/-- One physical row inside a hunk (`lineData` in `parseDiff`). -/
structure Line where
  content : String
  lineType : String
  oldLineNumber : Option Nat
  newLineNumber : Option Nat
deriving DecidableEq

/-- One contiguous change region (`currentHunk` in `parseDiff`). -/
structure Hunk where
  oldStart : Nat
  oldLength : Nat
  newStart : Nat
  newLength : Nat
  context : String
  lines : List Line
deriving DecidableEq

/-- One file's diff record (`currentFile` in `parseDiff`). -/
structure FileChange where
  filePath : String
  oldFilePath : String
  isDeleted : Bool
  isNew : Bool
  isRenamed : Bool
  isBinary : Bool
  hunks : List Hunk
deriving DecidableEq

/-- `/^diff --git a\/(.*?) b\/(.*?)$/`: the first lazy group is the shortest
prefix followed by the literal `" b/"`, the second is the remainder. -/
def matchDiffGit (l : List Char) : Option (List Char × List Char) :=
  if startsWithL ("diff --git a/".toList) l then
    splitFirst (" b/".toList) (l.drop 13)
  else none

/-- `/^--- (?:a\/)?(.*)$/` (greedy optional `a/`). -/
def matchOldPath (l : List Char) : Option (List Char) :=
  if startsWithL ("--- a/".toList) l then some (l.drop 6)
  else if startsWithL ("--- ".toList) l then some (l.drop 4)
  else none

/-- `/^\+\+\+ (?:b\/)?(.*)$/` (greedy optional `b/`). -/
def matchNewPath (l : List Char) : Option (List Char) :=
  if startsWithL ("+++ b/".toList) l then some (l.drop 6)
  else if startsWithL ("+++ ".toList) l then some (l.drop 4)
  else none

/-- `/^Binary files? .* differ$/`. -/
def matchBinary (l : List Char) : Bool :=
  (startsWithL ("Binary files ".toList) l && endsWithL (" differ".toList) (l.drop 13))
  || (startsWithL ("Binary file ".toList) l && endsWithL (" differ".toList) (l.drop 12))

/-- `/^@@ -(\d+)(?:,(\d+))? \+(\d+)(?:,(\d+))? @@(.*)$/`, returning
`(oldStart, oldLength, newStart, newLength, context)`; an omitted length
defaults to `1` and the trailing context is trimmed
(`match[5] ? match[5].trim() : ''`). -/
def matchHunkHeader (l : List Char) : Option (Nat × Nat × Nat × Nat × String) :=
  if startsWithL ("@@ -".toList) l then
    let (d1, r1) := digitsRun (l.drop 4)
    if d1.isEmpty then none
    else
      let p2 : Option (List Char) × List Char :=
        match r1 with
        | ',' :: rr =>
          let (d, r) := digitsRun rr
          if d.isEmpty then (none, r1) else (some d, r)
        | _ => (none, r1)
      if startsWithL (" +".toList) p2.2 then
        let (d3, r3) := digitsRun (p2.2.drop 2)
        if d3.isEmpty then none
        else
          let p4 : Option (List Char) × List Char :=
            match r3 with
            | ',' :: rr =>
              let (d, r) := digitsRun rr
              if d.isEmpty then (none, r3) else (some d, r)
            | _ => (none, r3)
          if startsWithL (" @@".toList) p4.2 then
            some (natOfDigits d1, (p2.1.map natOfDigits).getD 1,
                  natOfDigits d3, (p4.1.map natOfDigits).getD 1,
                  String.mk (trimChars (p4.2.drop 3)))
          else none
      else none
  else none

/-- `getLineType` from the source: classify a raw diff line by its prefix. -/
def getLineType (l : List Char) : String :=
  if startsWithL ("+".toList) l then "added"
  else if startsWithL ("-".toList) l then "removed"
  else "context"

/-- Count of lines whose kind occupies the old file (`context`/`removed`);
the `oldLineCount` loop of `parseDiff`. -/
def countOld : List Line → Nat
  | [] => 0
  | l :: ls => (if l.lineType == "context" || l.lineType == "removed" then 1 else 0) + countOld ls

/-- Count of lines whose kind occupies the new file (`context`/`added`);
the `newLineCount` loop of `parseDiff`. -/
def countNew : List Line → Nat
  | [] => 0
  | l :: ls => (if l.lineType == "context" || l.lineType == "added" then 1 else 0) + countNew ls

/-- Build the `lineData` record appended to `currentHunk.lines`. -/
def mkHunkLine (h : Hunk) (line : List Char) : Line :=
  let lineType := getLineType line
  { content := String.mk (line.drop 1)
    lineType := lineType
    oldLineNumber :=
      if lineType == "context" || lineType == "removed" then
        some (h.oldStart + countOld h.lines)
      else none
    newLineNumber :=
      if lineType == "context" || lineType == "added" then
        some (h.newStart + countNew h.lines)
      else none }

/-- Parser state. In the source `currentFile` is always the most recently
pushed element of `changes` (it is assigned exactly when pushed and never
cleared), so it is represented by the last list element; `currentHunk` is
the hunk object into which content lines are appended, represented by its
(file index, hunk index) position, since a hunk can keep receiving lines
after a later `diff --git` header changes the current file. -/
structure ParseState where
  changes : List FileChange
  hunkLoc : Option (Nat × Nat)
deriving DecidableEq

/-- `currentFile && !currentFile.isBinary` for the `@@` branch. -/
def currentFileOk (st : ParseState) : Bool :=
  match st.changes.getLast? with
  | some f => !f.isBinary
  | none => false

/-- Apply a field update to `currentFile` (no-op when it is null). -/
def setLastFile (st : ParseState) (f : FileChange → FileChange) : ParseState :=
  match st.changes with
  | [] => st
  | _ :: _ => { st with changes := updateAt st.changes (st.changes.length - 1) f }

/-- Push a fresh hunk onto the current file and make it current. -/
def openHunk (st : ParseState) (h : Hunk) : ParseState :=
  match st.changes.getLast? with
  | none => st
  | some f =>
    { changes := updateAt st.changes (st.changes.length - 1)
        (fun fc => { fc with hunks := fc.hunks ++ [h] })
      hunkLoc := some (st.changes.length - 1, f.hunks.length) }

/-- Append a classified content line to the current hunk. -/
def appendHunkLine (st : ParseState) (line : List Char) : ParseState :=
  match st.hunkLoc with
  | none => st
  | some (fi, hi) =>
    { st with changes := updateAt st.changes fi (fun fc =>
        { fc with hunks := updateAt fc.hunks hi (fun h =>
            { h with lines := h.lines ++ [mkHunkLine h line] }) }) }

/-- One iteration of the `while (i < lines.length)` loop of `parseDiff`:
the `else if` chain over the current raw line. -/
def processLine (st : ParseState) (line : List Char) : ParseState :=
  if startsWithL ("diff --git".toList) line then
    match matchDiffGit line with
    | some (old, new) =>
      { changes := st.changes ++
          [{ filePath := String.mk (trimChars new)
             oldFilePath := String.mk (trimChars old)
             isDeleted := false, isNew := false, isRenamed := false, isBinary := false
             hunks := [] }]
        hunkLoc := st.hunkLoc }
    | none => st
  else if startsWithL ("new file mode".toList) line then
    setLastFile st (fun f => { f with isNew := true })
  else if startsWithL ("deleted file mode".toList) line then
    setLastFile st (fun f => { f with isDeleted := true })
  else if startsWithL ("similarity index".toList) line
       || startsWithL ("rename from".toList) line
       || startsWithL ("rename to".toList) line then
    setLastFile st (fun f => { f with isRenamed := true })
  else if matchBinary line then
    setLastFile st (fun f => { f with isBinary := true })
  else if startsWithL ("---".toList) line then
    match matchOldPath line with
    | some p =>
      if p == ("/dev/null".toList) then st
      else setLastFile st (fun f => { f with oldFilePath := String.mk (trimChars p) })
    | none => st
  else if startsWithL ("+++".toList) line then
    match matchNewPath line with
    | some p =>
      if p == ("/dev/null".toList) then st
      else setLastFile st (fun f => { f with filePath := String.mk (trimChars p) })
    | none => st
  else if startsWithL ("@@".toList) line && currentFileOk st then
    match matchHunkHeader line with
    | some (os, ol, ns, nl, ctx) =>
      openHunk st { oldStart := os, oldLength := ol, newStart := ns, newLength := nl
                    context := ctx, lines := [] }
    | none => st
  else if st.hunkLoc.isSome
       && (startsWithL (" ".toList) line || startsWithL ("+".toList) line
           || startsWithL ("-".toList) line) then
    appendHunkLine st line
  else st

/-- `diffText.replace(/\r/g, '')`. -/
def stripCarriageReturns (s : String) : String :=
  String.mk (s.data.filter (fun c => c != '\r'))

/-- `parseDiff` from the source: sanitize, split into lines, scan. -/
def parseDiff (diffText : String) : List FileChange :=
  let sanitized := stripCarriageReturns diffText
  let lines := splitNl sanitized.data
  (lines.foldl processLine { changes := [], hunkLoc := none }).changes

/-- One element of `fileStats`. -/
structure FileStat where
  filePath : String
  added : Nat
  removed : Nat
  isNew : Bool
  isDeleted : Bool
  isBinary : Bool
deriving DecidableEq

/-- The record returned by `analyzeChanges`. -/
structure AnalysisResult where
  totalFiles : Nat
  totalAdded : Nat
  totalRemoved : Nat
  fileStats : List FileStat
deriving DecidableEq

/-- The inner `for (const line of hunk.lines)` counting loop: threads the
`(added, removed)` accumulator pair. -/
def countLinesAcc (acc : Nat × Nat) (lines : List Line) : Nat × Nat :=
  lines.foldl (fun c l =>
    if l.lineType == "added" then (c.1 + 1, c.2)
    else if l.lineType == "removed" then (c.1, c.2 + 1)
    else c) acc

/-- The body of the `for (const change of changes)` loop: `counts` is the
per-file `(fileAdded, fileRemoved)` pair; the accumulator carries the running
`(totalAdded, totalRemoved, fileStats)`. The JS loop adds each line to both
the per-file and the grand totals; equivalently the per-file counts are
computed per change and added into the running totals. -/
def analyzeStep (acc : Nat × Nat × List FileStat) (change : FileChange) :
    Nat × Nat × List FileStat :=
  (acc.1 + (change.hunks.foldl (fun c h => countLinesAcc c h.lines) (0, 0)).1,
   acc.2.1 + (change.hunks.foldl (fun c h => countLinesAcc c h.lines) (0, 0)).2,
   acc.2.2 ++ [{ filePath := if change.filePath == "" then "unknown_file" else change.filePath
                 added := (change.hunks.foldl (fun c h => countLinesAcc c h.lines) (0, 0)).1
                 removed := (change.hunks.foldl (fun c h => countLinesAcc c h.lines) (0, 0)).2
                 isNew := change.isNew, isDeleted := change.isDeleted
                 isBinary := change.isBinary }])

/-- `analyzeChanges` from the source. -/
def analyzeChanges (changes : List FileChange) : AnalysisResult :=
  if changes.isEmpty then
    { totalFiles := 0, totalAdded := 0, totalRemoved := 0, fileStats := [] }
  else
    let acc := changes.foldl analyzeStep (0, 0, [])
    { totalFiles := changes.length, totalAdded := acc.1, totalRemoved := acc.2.1
      fileStats := acc.2.2 }

/-- One `{content, lineNumber, isChange}` entry of a block's `code`. -/
structure CodeEntry where
  content : String
  lineNumber : Nat
  isChange : Bool
deriving DecidableEq

/-- One `{content, lineNumber}` entry of the sliding `contextBuffer`. -/
structure BufEntry where
  content : String
  lineNumber : Nat
deriving DecidableEq

/-- A changed code block (`currentBlock` in the source). -/
structure CodeBlock where
  filePath : String
  startLine : Option Nat
  endLine : Option Nat
  code : List CodeEntry
  hasChanges : Bool
deriving DecidableEq

/-- The freshly reset `currentBlock`. -/
def emptyBlock (filePath : String) : CodeBlock :=
  { filePath := filePath, startLine := none, endLine := none, code := [], hasChanges := false }

/-- The per-hunk loop state of `extractChangedCodeWithContext`. -/
structure ExtState where
  inChangeBlock : Bool
  currentBlock : CodeBlock
  contextBuffer : List BufEntry
  codeBlocks : List CodeBlock
deriving DecidableEq

/-- `(line.content || '').replace(/\n$/, '')`: drop one trailing newline. -/
def stripNlEnd (s : String) : String :=
  match s.data.reverse with
  | '\n' :: rest => String.mk rest.reverse
  | _ => s

/-- The `for (let j = ...; j >= 0; j--)` scan over the block's code from the
end: counts trailing non-change entries, breaking at the first change entry;
returns `some contextCount` exactly when the `contextCount >= contextLines`
check fires (the argument is the block's code reversed). -/
def closeScan (contextLines : Nat) : List CodeEntry → Nat → Option Nat
  | [], _ => none
  | e :: rest, cnt =>
    if e.isChange then none
    else if contextLines ≤ cnt + 1 then some (cnt + 1)
    else closeScan contextLines rest (cnt + 1)

/-- The body of the `if (contextCount >= contextLines)` block: trim, emit,
and reset for the next block. -/
def endBlockCheck (filePath : String) (contextLines : Nat) (st : ExtState) : ExtState :=
  match closeScan contextLines st.currentBlock.code.reverse 0 with
  | none => st
  | some contextCount =>
    let code := st.currentBlock.code
    let trimIndex := code.length - contextCount + contextLines
    let block1 :=
      if trimIndex < code.length then
        let newCode := code.take trimIndex
        { st.currentBlock with
          code := newCode
          endLine :=
            match newCode.getLast? with
            | some e => some e.lineNumber
            | none => st.currentBlock.endLine }
      else st.currentBlock
    { inChangeBlock := false
      currentBlock := emptyBlock filePath
      contextBuffer := []
      codeBlocks := st.codeBlocks ++
        (if block1.hasChanges && !block1.code.isEmpty then [block1] else []) }

/-- The `if (... && !inChangeBlock)` body: open a block, seeding it with the
buffered preceding context and clearing the buffer. -/
def extStart (contextLines : Nat) (st : ExtState) (lineNumber : Nat) : ExtState :=
  { st with
    inChangeBlock := true
    currentBlock := { st.currentBlock with
      startLine := some (max 1 (lineNumber - contextLines))
      hasChanges := true
      code := st.currentBlock.code ++
        st.contextBuffer.map (fun b =>
          { content := b.content, lineNumber := b.lineNumber, isChange := false }) }
    contextBuffer := [] }

/-- The `if (inChangeBlock)` body: append the current line to the block. -/
def extPush (st : ExtState) (content : String) (n : Nat) (ic : Bool) : ExtState :=
  { st with currentBlock := { st.currentBlock with
      code := st.currentBlock.code ++ [{ content := content, lineNumber := n, isChange := ic }]
      endLine := some n } }

/-- The `else` body: push onto the sliding context buffer, shifting when it
exceeds `contextLines` entries. -/
def extBuffer (contextLines : Nat) (st : ExtState) (content : String) (n : Nat) : ExtState :=
  let buf := st.contextBuffer ++ [{ content := content, lineNumber := n }]
  { st with contextBuffer := if contextLines < buf.length then buf.drop 1 else buf }

/-- One iteration of the `for (let i = 0; i < lines.length; i++)` loop. -/
def extStep (filePath : String) (contextLines : Nat) (st : ExtState) (line : Line) : ExtState :=
  match line.newLineNumber with
  | none => st
  | some lineNumber =>
    let lineContent := stripNlEnd line.content
    let lineType := line.lineType
    let st1 :=
      if (lineType == "added" || lineType == "removed") && !st.inChangeBlock then
        extStart contextLines st lineNumber
      else st
    let st2 :=
      if st1.inChangeBlock then
        extPush st1 lineContent lineNumber (lineType == "added" || lineType == "removed")
      else extBuffer contextLines st1 lineContent lineNumber
    if lineType == "context" && st2.inChangeBlock then
      endBlockCheck filePath contextLines st2
    else st2

/-- Process one hunk: fold the line loop, then flush a still-open block. -/
def hunkBlocks (filePath : String) (contextLines : Nat) (lines : List Line) : List CodeBlock :=
  if lines.isEmpty then []
  else
    let final := lines.foldl (extStep filePath contextLines)
      { inChangeBlock := false, currentBlock := emptyBlock filePath
        contextBuffer := [], codeBlocks := [] }
    final.codeBlocks ++
      (if final.inChangeBlock && final.currentBlock.hasChanges
          && !final.currentBlock.code.isEmpty then [final.currentBlock] else [])

/-- `extractChangedCodeWithContext` from the source. -/
def extractChangedCodeWithContext (changes : List FileChange) (contextLines : Nat := 3) :
    List CodeBlock :=
  changes.foldl (fun acc change =>
    if change.filePath == "" then acc
    else if change.isDeleted || change.isBinary then acc
    else acc ++ change.hunks.foldl
      (fun a h => a ++ hunkBlocks change.filePath contextLines h.lines) []) []

/-- The record returned by `findBestLineForComment`; `lineExists` embeds the
JS field `exists`, absent JS fields are `false`/`none`. -/
structure LocateResult where
  line : Nat
  lineExists : Bool
  type : Option String
  inDiff : Bool
  adjusted : Bool
  originalLine : Option Nat
deriving DecidableEq

/-- The `lineMap` construction: `(newLineNumber, lineType)` pairs in
insertion order, over every line of every hunk that has a `newLineNumber`. -/
def collectLineEntries (hunks : List Hunk) : List (Nat × String) :=
  hunks.foldl (fun acc h =>
    acc ++ h.lines.filterMap (fun l => l.newLineNumber.map (fun n => (n, l.lineType)))) []

/-- `lineMap.has(k)`. -/
def mapHas (entries : List (Nat × String)) (k : Nat) : Bool :=
  entries.any (fun e => e.1 == k)

/-- `lineMap.get(k).type`: the last insertion for a key wins. -/
def lookupLast (entries : List (Nat × String)) (k : Nat) : Option String :=
  ((entries.filter (fun e => e.1 == k)).getLast?).map Prod.snd

/-- The set of addressable (commentable-to) new-file line numbers. -/
def addressableLines (hunks : List Hunk) : List Nat :=
  (collectLineEntries hunks).map Prod.fst

/-- `Math.abs(a - b)` on naturals. -/
def absDist (a b : Nat) : Nat :=
  if a ≤ b then b - a else a - b

/-- `Array.from(lineMap.keys()).sort((a, b) => a - b)`: the keys in first
insertion order, sorted ascending. -/
def dedupKeys : List Nat → List Nat → List Nat
  | [], _ => []
  | x :: xs, seen =>
    if seen.contains x then dedupKeys xs seen else x :: dedupKeys xs (x :: seen)

/-- Numeric ascending sort of the available keys. -/
def sortNat (l : List Nat) : List Nat :=
  List.insertionSort (· ≤ ·) l

/-- `findBestLineForComment` from the source. A `none` argument models the
`!fileInfo || !fileInfo.hunks` guard (null file info or absent hunk array). -/
def findBestLineForComment (fileHunks : Option (List Hunk)) (targetLine : Nat) : LocateResult :=
  match fileHunks with
  | none =>
    { line := targetLine, lineExists := false, type := none, inDiff := false
      adjusted := false, originalLine := none }
  | some hunks =>
    let entries := collectLineEntries hunks
    if mapHas entries targetLine then
      { line := targetLine, lineExists := true, type := lookupLast entries targetLine
        inDiff := true, adjusted := false, originalLine := none }
    else
      match sortNat (dedupKeys (entries.map Prod.fst) []) with
      | [] =>
        { line := targetLine, lineExists := false, type := none, inDiff := false
          adjusted := false, originalLine := none }
      | a :: rest =>
        let r := (a :: rest).foldl
          (fun acc x => if absDist targetLine x < acc.2 then (x, absDist targetLine x) else acc)
          (a, absDist targetLine a)
        { line := r.1, lineExists := true, type := lookupLast entries r.1
          inDiff := true, adjusted := true, originalLine := some targetLine }

/-- Number of `added` lines of one hunk. -/
def hunkAddedCount (h : Hunk) : Nat :=
  h.lines.countP (fun l => l.lineType == "added")

/-- Number of `removed` lines of one hunk. -/
def hunkRemovedCount (h : Hunk) : Nat :=
  h.lines.countP (fun l => l.lineType == "removed")

/-- A file's own added-line count: the sum over its hunks. -/
def fileAddedCount (fc : FileChange) : Nat :=
  (fc.hunks.map hunkAddedCount).sum

/-- A file's own removed-line count: the sum over its hunks. -/
def fileRemovedCount (fc : FileChange) : Nat :=
  (fc.hunks.map hunkRemovedCount).sum

/-- The `fileStats` entry the spec describes for one file. -/
def fileStatOf (fc : FileChange) : FileStat :=
  { filePath := if fc.filePath == "" then "unknown_file" else fc.filePath
    added := fileAddedCount fc
    removed := fileRemovedCount fc
    isNew := fc.isNew, isDeleted := fc.isDeleted, isBinary := fc.isBinary }

/-- The single-hunk file used to exercise the locator: addressable new-file
lines are exactly 10, 11, 12. -/
def locatorHunks : List Hunk :=
  [{ oldStart := 9, oldLength := 3, newStart := 10, newLength := 3, context := ""
     lines := [{ content := "a", lineType := "context"
                 oldLineNumber := some 9, newLineNumber := some 10 },
               { content := "b", lineType := "added"
                 oldLineNumber := none, newLineNumber := some 11 },
               { content := "c", lineType := "context"
                 oldLineNumber := some 10, newLineNumber := some 12 }] }]

/-- A raw line that matches none of the guards of the `else if` chain of
`parseDiff` (no recognized header prefix, not a binary marker, no
space/`+`/`-` content prefix). -/
def unrecognizedLine (l : List Char) : Bool :=
  !startsWithL ("diff --git".toList) l &&
  !startsWithL ("new file mode".toList) l &&
  !startsWithL ("deleted file mode".toList) l &&
  !startsWithL ("similarity index".toList) l &&
  !startsWithL ("rename from".toList) l &&
  !startsWithL ("rename to".toList) l &&
  !matchBinary l &&
  !startsWithL ("---".toList) l &&
  !startsWithL ("+++".toList) l &&
  !startsWithL ("@@".toList) l &&
  !startsWithL (" ".toList) l &&
  !startsWithL ("+".toList) l &&
  !startsWithL ("-".toList) l

/-- The numbering discipline of hunk lines, scanned from the front: a line
whose kind is context/removed carries `oldStart + (prior context/removed
count)` as old number (otherwise none), and a context/added line carries
`newStart + (prior context/added count)` as new number (otherwise none). -/
def linesNumberedFrom (oldStart newStart : Nat) : List Line → Prop
  | [] => True
  | l :: ls =>
      (l.oldLineNumber =
        if l.lineType == "context" || l.lineType == "removed" then some oldStart else none)
      ∧ (l.newLineNumber =
        if l.lineType == "context" || l.lineType == "added" then some newStart else none)
      ∧ linesNumberedFrom
          (oldStart + (if l.lineType == "context" || l.lineType == "removed" then 1 else 0))
          (newStart + (if l.lineType == "context" || l.lineType == "added" then 1 else 0)) ls

/-- A hunk whose lines obey the numbering discipline from its own header. -/
def HunkOk (h : Hunk) : Prop :=
  linesNumberedFrom h.oldStart h.newStart h.lines

/-- Every hunk of every file of the parser state obeys the discipline. -/
def AllHunksOk (st : ParseState) : Prop :=
  ∀ fc ∈ st.changes, ∀ h ∈ fc.hunks, HunkOk h

/-- The diff of the spec's numbering scenario. -/
def c1Diff : String :=
  "diff --git a/a.js b/a.js\n@@ -9,3 +9,4 @@\n unchanged9\n unchanged10\n+newline\n unchanged11"

/-- The hunk `parseDiff` produces for `c1Diff`. -/
def c1Hunk : Hunk :=
  { oldStart := 9, oldLength := 3, newStart := 9, newLength := 4, context := ""
    lines := [{ content := "unchanged9", lineType := "context"
                oldLineNumber := some 9, newLineNumber := some 9 },
              { content := "unchanged10", lineType := "context"
                oldLineNumber := some 10, newLineNumber := some 10 },
              { content := "newline", lineType := "added"
                oldLineNumber := none, newLineNumber := some 11 },
              { content := "unchanged11", lineType := "context"
                oldLineNumber := some 11, newLineNumber := some 12 }] }

/-- The file record `parseDiff` produces for `c1Diff`. -/
def c1File : FileChange :=
  { filePath := "a.js", oldFilePath := "a.js", isDeleted := false, isNew := false
    isRenamed := false, isBinary := false, hunks := [c1Hunk] }

/-- A parser state with one file and one open (current) hunk. -/
def c2St : ParseState :=
  { changes := [{ filePath := "f", oldFilePath := "f", isDeleted := false, isNew := false
                  isRenamed := false, isBinary := false
                  hunks := [{ oldStart := 1, oldLength := 1, newStart := 1, newLength := 1
                              context := "", lines := [] }] }]
    hunkLoc := some (0, 0) }

/-- The shape invariant of an (open or emitted) block: it has retained
entries, `endLine` is the line number of the last retained entry, and
`startLine` is `max 1 (firstChange - contextLines)` where `firstChange` is
the line number of its first changed entry. -/
def BlockOk (cl : Nat) (b : CodeBlock) : Prop :=
  b.code ≠ []
  ∧ b.endLine = (b.code.getLast?).map (fun e => e.lineNumber)
  ∧ ∃ e, b.code.find? (fun x => x.isChange) = some e
      ∧ b.startLine = some (max 1 (e.lineNumber - cl))

/-- Loop invariant of the per-hunk scan. -/
def ExtInv (fp : String) (cl : Nat) (st : ExtState) : Prop :=
  (st.inChangeBlock = false → st.currentBlock = emptyBlock fp)
  ∧ (st.inChangeBlock = true → BlockOk cl st.currentBlock)
  ∧ ∀ b ∈ st.codeBlocks, BlockOk cl b

/-- The single block the extractor emits for the one-added-line diff whose
hunk starts at new line 50. -/
def c3Block : CodeBlock :=
  { filePath := "f", startLine := some 47, endLine := some 50
    code := [{ content := "x", lineNumber := 50, isChange := true }]
    hasChanges := true }

/-- Drop all `removed`-kind lines from every hunk of every file. -/
def eraseRemovedLines (changes : List FileChange) : List FileChange :=
  changes.map (fun fc => { fc with hunks := fc.hunks.map (fun h =>
    { h with lines := h.lines.filter (fun l => !(l.lineType == "removed")) }) })

/-- The diff of a hunk whose only change is a removal. -/
def c9Diff : String := "diff --git a/f b/f\n@@ -1,2 +1,1 @@\n c1\n-x"

/-- The hunk `parseDiff` produces for `c9Diff`. -/
def c9Hunk : Hunk :=
  { oldStart := 1, oldLength := 2, newStart := 1, newLength := 1, context := ""
    lines := [{ content := "c1", lineType := "context"
                oldLineNumber := some 1, newLineNumber := some 1 },
              { content := "x", lineType := "removed"
                oldLineNumber := some 2, newLineNumber := none }] }

/-- The file record `parseDiff` produces for `c9Diff`. -/
def c9File : FileChange :=
  { filePath := "f", oldFilePath := "f", isDeleted := false, isNew := false
    isRenamed := false, isBinary := false, hunks := [c9Hunk] }

/-! ### Lemmas and claim theorems -/

lemma countLinesAcc_eq (lines : List Line) : ∀ acc : Nat × Nat,
    countLinesAcc acc lines =
      (acc.1 + lines.countP (fun l => l.lineType == "added"),
       acc.2 + lines.countP (fun l => l.lineType == "removed")) := by
  induction lines with
  | nil => intro acc; simp [countLinesAcc]
  | cons l ls ih =>
    intro acc
    have step : countLinesAcc acc (l :: ls) =
        countLinesAcc (if l.lineType == "added" then (acc.1 + 1, acc.2)
          else if l.lineType == "removed" then (acc.1, acc.2 + 1) else acc) ls := rfl
    rw [step]
    by_cases h1 : l.lineType == "added"
    · have h2 : (l.lineType == "removed") = false := by
        have := eq_of_beq h1; simp [this]
      rw [ih]
      simp [h1, h2, List.countP_cons]
      omega
    · by_cases h2 : l.lineType == "removed"
      · rw [ih]
        simp [h1, h2, List.countP_cons]
        omega
      · rw [ih]
        simp [h1, h2, List.countP_cons]

lemma hunksFold_eq (hunks : List Hunk) : ∀ acc : Nat × Nat,
    hunks.foldl (fun c h => countLinesAcc c h.lines) acc =
      (acc.1 + (hunks.map hunkAddedCount).sum, acc.2 + (hunks.map hunkRemovedCount).sum) := by
  induction hunks with
  | nil => intro acc; simp
  | cons h hs ih =>
    intro acc
    simp only [List.foldl_cons, List.map_cons, List.sum_cons]
    rw [countLinesAcc_eq, ih]
    simp only [hunkAddedCount, hunkRemovedCount, Prod.mk.injEq]
    constructor <;> omega

lemma analyzeStep_eq (acc : Nat × Nat × List FileStat) (c : FileChange) :
    analyzeStep acc c =
      (acc.1 + fileAddedCount c, acc.2.1 + fileRemovedCount c, acc.2.2 ++ [fileStatOf c]) := by
  unfold analyzeStep
  rw [hunksFold_eq]
  simp [fileAddedCount, fileRemovedCount, fileStatOf]

lemma analyzeFold_eq (changes : List FileChange) : ∀ acc : Nat × Nat × List FileStat,
    changes.foldl analyzeStep acc =
      (acc.1 + (changes.map fileAddedCount).sum,
       acc.2.1 + (changes.map fileRemovedCount).sum,
       acc.2.2 ++ changes.map fileStatOf) := by
  induction changes with
  | nil => intro acc; simp
  | cons c cs ih =>
    intro acc
    simp only [List.foldl_cons, List.map_cons, List.sum_cons]
    rw [analyzeStep_eq, ih]
    refine Prod.ext ?_ (Prod.ext ?_ ?_) <;> simp <;> omega

/-- Claim C8, counterexample: a binary file whose record still carries a hunk
(the `Binary files ... differ` marker can follow a hunk in the input) has its
added lines counted, so a binary file does not always contribute zero to the
line totals as the claim states. Here `totalAdded = 1` although the only file
is binary. -/
theorem claim_C8_counterexample :
    analyzeChanges (parseDiff
        "diff --git a/x b/x\n@@ -1,0 +1,1 @@\n+a\nBinary files a/x and b/x differ") =
      { totalFiles := 1, totalAdded := 1, totalRemoved := 0
        fileStats := [{ filePath := "x", added := 1, removed := 0
                        isNew := false, isDeleted := false, isBinary := true }] } := by
  rfl

/-- Claim C8 (amended): `analyzeChanges` returns the length of the input as
`totalFiles`, the sums of added/removed line counts across all hunks of all
files — hunks of binary-flagged files included — as the totals, and per-file
stats in input order; a file with no hunks (or whose hunks contain no
added/removed lines) contributes zero, and the empty list yields the all-zero
result. -/
theorem claim_C8_amended (changes : List FileChange) :
    analyzeChanges changes =
      { totalFiles := changes.length
        totalAdded := (changes.map fileAddedCount).sum
        totalRemoved := (changes.map fileRemovedCount).sum
        fileStats := changes.map fileStatOf } := by
  unfold analyzeChanges
  by_cases h : changes.isEmpty
  · have : changes = [] := List.isEmpty_iff.mp h
    subst this
    simp
  · rw [if_neg h]
    rw [analyzeFold_eq]
    simp

/-- Claim C10: for a non-empty list of file changes, `totalFiles` is the
length of the input list; binary files and files with empty hunk lists are
counted like any other file. -/
theorem claim_C10_totalFiles (changes : List FileChange) (h : changes ≠ []) :
    (analyzeChanges changes).totalFiles = changes.length := by
  unfold analyzeChanges
  rw [if_neg (by simpa [List.isEmpty_iff] using h)]

/-- Claim C10, witness: a single binary file with no hunks is still counted. -/
theorem claim_C10_totalFiles_witness :
    ([({ filePath := "img.png", oldFilePath := "img.png", isDeleted := false
         isNew := false, isRenamed := false, isBinary := true, hunks := [] } : FileChange)] ≠ [])
    ∧ (analyzeChanges
        [{ filePath := "img.png", oldFilePath := "img.png", isDeleted := false
           isNew := false, isRenamed := false, isBinary := true, hunks := [] }]).totalFiles = 1 :=
  ⟨by decide,
   claim_C10_totalFiles
     [{ filePath := "img.png", oldFilePath := "img.png", isDeleted := false
        isNew := false, isRenamed := false, isBinary := true, hunks := [] }]
     (by decide)⟩

lemma mapHas_iff (entries : List (Nat × String)) (k : Nat) :
    mapHas entries k = true ↔ k ∈ entries.map Prod.fst := by
  simp [mapHas, List.any_eq_true, List.mem_map]

lemma mem_dedupKeys : ∀ (l seen : List Nat) (x : Nat),
    x ∈ dedupKeys l seen ↔ (x ∈ l ∧ x ∉ seen) := by
  intro l
  induction l with
  | nil => simp [dedupKeys]
  | cons y ys ih =>
    intro seen x
    by_cases hy : (seen.contains y : Bool)
    · have hy' : y ∈ seen := List.elem_iff.mp hy
      rw [show dedupKeys (y :: ys) seen = dedupKeys ys seen from by simp [dedupKeys, hy, hy']]
      rw [ih]
      constructor
      · rintro ⟨hx, hns⟩
        exact ⟨List.mem_cons_of_mem _ hx, hns⟩
      · rintro ⟨hx, hns⟩
        rcases List.mem_cons.mp hx with rfl | hx
        · exact absurd hy' hns
        · exact ⟨hx, hns⟩
    · have hy' : y ∉ seen := fun hm => hy (List.elem_iff.mpr hm)
      rw [show dedupKeys (y :: ys) seen = y :: dedupKeys ys (y :: seen) from by
        simp [dedupKeys, hy, hy']]
      constructor
      · intro hx
        rcases List.mem_cons.mp hx with rfl | hx
        · exact ⟨List.mem_cons_self _ _, hy'⟩
        · obtain ⟨h1, h2⟩ := (ih _ _).mp hx
          exact ⟨List.mem_cons_of_mem _ h1,
                 fun hm => h2 (List.mem_cons_of_mem _ hm)⟩
      · rintro ⟨hx, hns⟩
        rcases List.mem_cons.mp hx with rfl | hx
        · exact List.mem_cons_self _ _
        · by_cases hxy : x = y
          · subst hxy; exact List.mem_cons_self _ _
          · exact List.mem_cons_of_mem _ ((ih _ _).mpr
              ⟨hx, fun hm => (List.mem_cons.mp hm).elim hxy hns⟩)

/-- The closest-line scan of `findBestLineForComment`: folding the strict
`<` comparison over a sorted candidate list yields a candidate of minimum
absolute distance, ties resolved toward the smaller line number. -/
lemma scanMin (t : Nat) : ∀ (l : List Nat) (b r1 r2 : Nat),
    l.foldl (fun acc x => if absDist t x < acc.2 then (x, absDist t x) else acc)
        (b, absDist t b) = (r1, r2) →
    List.Sorted (· ≤ ·) (b :: l) →
    r1 ∈ b :: l ∧ ∀ m ∈ b :: l,
      absDist t r1 < absDist t m ∨ (absDist t r1 = absDist t m ∧ r1 ≤ m) := by
  intro l
  induction l with
  | nil =>
    intro b r1 r2 hfold _
    simp only [List.foldl_nil, Prod.mk.injEq] at hfold
    obtain ⟨rfl, -⟩ := hfold
    refine ⟨List.mem_cons_self _ _, ?_⟩
    intro m hm
    rcases List.mem_cons.mp hm with rfl | hm
    · exact Or.inr ⟨rfl, Nat.le_refl _⟩
    · exact absurd hm (List.not_mem_nil m)
  | cons x xs ih =>
    intro b r1 r2 hfold hsort
    have hbx : b ≤ x := (List.sorted_cons.mp hsort).1 x (List.mem_cons_self _ _)
    have hxxs : List.Sorted (· ≤ ·) (x :: xs) := (List.sorted_cons.mp hsort).2
    have hbxs : List.Sorted (· ≤ ·) (b :: xs) := by
      rw [List.sorted_cons]
      exact ⟨fun m hm => (List.sorted_cons.mp hsort).1 m (List.mem_cons_of_mem _ hm),
             (List.sorted_cons.mp hxxs).2⟩
    rw [List.foldl_cons] at hfold
    by_cases hlt : absDist t x < absDist t b
    · rw [if_pos hlt] at hfold
      obtain ⟨hm1, hall⟩ := ih x r1 r2 hfold hxxs
      refine ⟨List.mem_cons_of_mem _ hm1, ?_⟩
      intro m hm
      rcases List.mem_cons.mp hm with rfl | hm
      · have hx1 := hall x (List.mem_cons_self _ _)
        left
        rcases hx1 with h | ⟨h, -⟩ <;> omega
      · exact hall m hm
    · rw [if_neg hlt] at hfold
      obtain ⟨hm1, hall⟩ := ih b r1 r2 hfold hbxs
      have hmem : r1 ∈ b :: x :: xs := by
        rcases List.mem_cons.mp hm1 with rfl | hm1
        · exact List.mem_cons_self _ _
        · exact List.mem_cons_of_mem _ (List.mem_cons_of_mem _ hm1)
      refine ⟨hmem, ?_⟩
      intro m hm
      rcases List.mem_cons.mp hm with rfl | hm
      · exact hall m (List.mem_cons_self _ _)
      rcases List.mem_cons.mp hm with rfl | hm
      · -- the skipped element x
        have hb := hall b (List.mem_cons_self _ _)
        by_cases heq : absDist t r1 < absDist t m
        · exact Or.inl heq
        · right
          have h1 : absDist t r1 ≤ absDist t b := by rcases hb with h | ⟨h, -⟩ <;> omega
          have h2 : absDist t b ≤ absDist t m := by omega
          refine ⟨by omega, ?_⟩
          have hr1b : r1 ≤ b := by
            rcases hb with h | ⟨-, h⟩
            · omega
            · exact h
          exact Nat.le_trans hr1b hbx
      · exact hall m (List.mem_cons_of_mem _ hm)

/-- Claim C6: when no line of the file's hunks carries a `newLineNumber`
(including an absent or empty hunk list), the locator returns
`{line: targetLine, exists: false, type: null, inDiff: false}` (absent JS
fields modeled as `false`/`none`). -/
theorem claim_C6_no_addressable :
    (∀ t : Nat, findBestLineForComment none t =
      { line := t, lineExists := false, type := none, inDiff := false
        adjusted := false, originalLine := none })
    ∧ ∀ (hs : List Hunk) (t : Nat), addressableLines hs = [] →
        findBestLineForComment (some hs) t =
          { line := t, lineExists := false, type := none, inDiff := false
            adjusted := false, originalLine := none } := by
  constructor
  · intro t; rfl
  · intro hs t haddr
    have hent : collectLineEntries hs = [] := by
      have := haddr
      unfold addressableLines at this
      exact List.map_eq_nil_iff.mp this
    simp [findBestLineForComment, hent, mapHas, dedupKeys, sortNat]

/-- Claim C6, witness: an empty hunk list has no addressable lines and the
locator signals `inDiff: false`; a `none` file info behaves the same. -/
theorem claim_C6_no_addressable_witness :
    findBestLineForComment none 7 =
      { line := 7, lineExists := false, type := none, inDiff := false
        adjusted := false, originalLine := none }
    ∧ (addressableLines [] = []
    ∧ findBestLineForComment (some []) 7 =
      { line := 7, lineExists := false, type := none, inDiff := false
        adjusted := false, originalLine := none }) :=
  ⟨claim_C6_no_addressable.1 7, by decide, claim_C6_no_addressable.2 [] 7 (by decide)⟩

/-- Claim C5: an exact match on `targetLine` is returned as-is with
`adjusted` falsy; otherwise, when addressable lines exist, the locator
returns the addressable line of minimum absolute distance to the target
(ties resolved in favor of the lower line number), with `adjusted: true`
and `originalLine` equal to the requested target. -/
theorem claim_C5_locate (hunks : List Hunk) (targetLine : Nat) :
    (targetLine ∈ addressableLines hunks →
      findBestLineForComment (some hunks) targetLine =
        { line := targetLine, lineExists := true
          type := lookupLast (collectLineEntries hunks) targetLine
          inDiff := true, adjusted := false, originalLine := none })
    ∧ (targetLine ∉ addressableLines hunks → addressableLines hunks ≠ [] →
      (findBestLineForComment (some hunks) targetLine).line ∈ addressableLines hunks
      ∧ (findBestLineForComment (some hunks) targetLine).adjusted = true
      ∧ (findBestLineForComment (some hunks) targetLine).originalLine = some targetLine
      ∧ ∀ m ∈ addressableLines hunks,
          absDist targetLine (findBestLineForComment (some hunks) targetLine).line
              < absDist targetLine m
          ∨ (absDist targetLine (findBestLineForComment (some hunks) targetLine).line
              = absDist targetLine m
             ∧ (findBestLineForComment (some hunks) targetLine).line ≤ m)) := by
  constructor
  · intro hmem
    have hhas : mapHas (collectLineEntries hunks) targetLine = true :=
      (mapHas_iff _ _).mpr hmem
    simp only [findBestLineForComment]
    rw [if_pos hhas]
  · intro hnot hne
    have hhas : mapHas (collectLineEntries hunks) targetLine = false :=
      Bool.eq_false_iff.mpr (fun h => hnot ((mapHas_iff _ _).mp h))
    have hmemav : ∀ x : Nat,
        x ∈ sortNat (dedupKeys ((collectLineEntries hunks).map Prod.fst) []) ↔
          x ∈ addressableLines hunks := by
      intro x
      unfold sortNat
      rw [List.mem_insertionSort, mem_dedupKeys]
      simp [addressableLines]
    have hsorted : List.Sorted (· ≤ ·)
        (sortNat (dedupKeys ((collectLineEntries hunks).map Prod.fst) [])) :=
      List.sorted_insertionSort _ _
    obtain ⟨y, hy⟩ := List.exists_mem_of_ne_nil _ hne
    have hyav : y ∈ sortNat (dedupKeys ((collectLineEntries hunks).map Prod.fst) []) :=
      (hmemav y).mpr hy
    obtain ⟨a, rest, heq⟩ :
        ∃ a rest, sortNat (dedupKeys ((collectLineEntries hunks).map Prod.fst) []) = a :: rest := by
      cases hx : sortNat (dedupKeys ((collectLineEntries hunks).map Prod.fst) []) with
      | nil => rw [hx] at hyav; exact absurd hyav (List.not_mem_nil y)
      | cons a rest => exact ⟨a, rest, rfl⟩
    rw [heq] at hsorted
    have hsorted2 : List.Sorted (· ≤ ·) (a :: a :: rest) := by
      rw [List.sorted_cons]
      refine ⟨?_, hsorted⟩
      intro m hm
      rcases List.mem_cons.mp hm with rfl | hm
      · exact Nat.le_refl _
      · exact (List.sorted_cons.mp hsorted).1 m hm
    obtain ⟨hm1, hall⟩ := scanMin targetLine (a :: rest) a
      ((a :: rest).foldl
        (fun acc x => if absDist targetLine x < acc.2 then (x, absDist targetLine x) else acc)
        (a, absDist targetLine a)).1
      ((a :: rest).foldl
        (fun acc x => if absDist targetLine x < acc.2 then (x, absDist targetLine x) else acc)
        (a, absDist targetLine a)).2
      rfl hsorted2
    have hline : (findBestLineForComment (some hunks) targetLine).line =
        ((a :: rest).foldl
          (fun acc x => if absDist targetLine x < acc.2 then (x, absDist targetLine x) else acc)
          (a, absDist targetLine a)).1 := by
      simp only [findBestLineForComment]
      rw [if_neg (by simp [hhas]), heq]
    have hmem1 : (findBestLineForComment (some hunks) targetLine).line ∈ addressableLines hunks := by
      rw [hline]
      rcases List.mem_cons.mp hm1 with h | h
      · rw [h]
        exact (hmemav a).mp (by rw [heq]; exact List.mem_cons_self _ _)
      · exact (hmemav _).mp (by rw [heq]; exact h)
    refine ⟨hmem1, ?_, ?_, ?_⟩
    · simp only [findBestLineForComment]
      rw [if_neg (by simp [hhas]), heq]
    · simp only [findBestLineForComment]
      rw [if_neg (by simp [hhas]), heq]
    · intro m hmaddr
      have hmav : m ∈ a :: rest := by rw [← heq]; exact (hmemav m).mpr hmaddr
      rw [hline]
      exact hall m (List.mem_cons_of_mem _ hmav)

/-- Claim C5, witness: on a file whose only addressable lines are 10, 11, 12,
target 500 resolves (via the theorem) to an addressable line with
`adjusted: true`, `originalLine: 500` — concretely line 12 — and an exact
match on 11 is returned unadjusted. -/
theorem claim_C5_locate_witness :
    (11 ∈ addressableLines locatorHunks
     ∧ findBestLineForComment (some locatorHunks) 11 =
        { line := 11, lineExists := true
          type := lookupLast (collectLineEntries locatorHunks) 11
          inDiff := true, adjusted := false, originalLine := none })
    ∧ (500 ∉ addressableLines locatorHunks
       ∧ addressableLines locatorHunks ≠ []
       ∧ (findBestLineForComment (some locatorHunks) 500).adjusted = true
       ∧ (findBestLineForComment (some locatorHunks) 500).originalLine = some 500
       ∧ (findBestLineForComment (some locatorHunks) 500).line = 12) :=
  ⟨⟨by decide, (claim_C5_locate locatorHunks 11).1 (by decide)⟩,
   by decide, by decide,
   ((claim_C5_locate locatorHunks 500).2 (by decide) (by decide)).2.1,
   ((claim_C5_locate locatorHunks 500).2 (by decide) (by decide)).2.2.1,
   by decide⟩

lemma filter_idem (p : α → Bool) (l : List α) : (l.filter p).filter p = l.filter p := by
  induction l with
  | nil => rfl
  | cons x xs ih =>
    by_cases h : p x <;> simp [List.filter_cons, h, ih]

/-- Claim C7: `parseDiff` is a total function (the embedding returns a list
of file changes for every input string by construction); carriage returns
are stripped before processing, so parsing is invariant under pre-stripping
them, and a line recognized by no branch of the scanner leaves the parser
state unchanged (it is skipped). -/
theorem claim_C7_robust :
    (∀ s : String, parseDiff (stripCarriageReturns s) = parseDiff s)
    ∧ ∀ (st : ParseState) (l : List Char),
        unrecognizedLine l = true → processLine st l = st := by
  constructor
  · intro s
    have hidem : stripCarriageReturns (stripCarriageReturns s) = stripCarriageReturns s := by
      unfold stripCarriageReturns
      exact congrArg String.mk (filter_idem _ _)
    simp only [parseDiff]
    rw [hidem]
  · intro st l h
    simp only [unrecognizedLine, Bool.and_eq_true, Bool.not_eq_true'] at h
    obtain ⟨⟨⟨⟨⟨⟨⟨⟨⟨⟨⟨⟨h1, h2⟩, h3⟩, h4⟩, h5⟩, h6⟩, h7⟩, h8⟩, h9⟩, h10⟩, h11⟩, h12⟩, h13⟩ := h
    unfold processLine
    rw [h1, h2, h3, h4, h5, h6, h7, h8, h9, h10, h11, h12, h13]
    simp

/-- Claim C7, witness: an `index` metadata line is skipped, and parsing is
unaffected by carriage returns in the input. -/
theorem claim_C7_robust_witness :
    parseDiff (stripCarriageReturns "diff --git a/f b/f\r\n") = parseDiff "diff --git a/f b/f\r\n"
    ∧ (unrecognizedLine ("index 1234567..89abcde 100644".toList) = true
       ∧ processLine { changes := [], hunkLoc := none }
           ("index 1234567..89abcde 100644".toList) = { changes := [], hunkLoc := none }) :=
  ⟨claim_C7_robust.1 "diff --git a/f b/f\r\n",
   by decide,
   claim_C7_robust.2 { changes := [], hunkLoc := none }
     ("index 1234567..89abcde 100644".toList) (by decide)⟩

lemma linesNumberedFrom_append : ∀ (ls : List Line) (a b : Nat) (l' : Line),
    linesNumberedFrom a b ls →
    (l'.oldLineNumber =
      if l'.lineType == "context" || l'.lineType == "removed"
      then some (a + countOld ls) else none) →
    (l'.newLineNumber =
      if l'.lineType == "context" || l'.lineType == "added"
      then some (b + countNew ls) else none) →
    linesNumberedFrom a b (ls ++ [l']) := by
  intro ls
  induction ls with
  | nil =>
    intro a b l' _ hold hnew
    refine ⟨?_, ?_, trivial⟩
    · simpa [countOld] using hold
    · simpa [countNew] using hnew
  | cons x xs ih =>
    intro a b l' hnum hold hnew
    obtain ⟨hx1, hx2, hrest⟩ := hnum
    refine ⟨hx1, hx2, ?_⟩
    apply ih _ _ _ hrest
    · rw [hold]
      rw [show a + countOld (x :: xs) =
            a + (if x.lineType == "context" || x.lineType == "removed" then 1 else 0)
              + countOld xs from by
        simp only [countOld]; rw [Nat.add_assoc]]
    · rw [hnew]
      rw [show b + countNew (x :: xs) =
            b + (if x.lineType == "context" || x.lineType == "added" then 1 else 0)
              + countNew xs from by
        simp only [countNew]; rw [Nat.add_assoc]]

lemma hunkOk_appendLine (h : Hunk) (line : List Char) (hh : HunkOk h) :
    HunkOk { h with lines := h.lines ++ [mkHunkLine h line] } := by
  unfold HunkOk at *
  exact linesNumberedFrom_append h.lines h.oldStart h.newStart (mkHunkLine h line) hh rfl rfl

lemma mem_updateAt {x : α} : ∀ {l : List α} {i : Nat} {f : α → α},
    x ∈ updateAt l i f → x ∈ l ∨ ∃ y, y ∈ l ∧ x = f y := by
  intro l
  induction l with
  | nil => intro i f hx; simp [updateAt] at hx
  | cons a as ih =>
    intro i f hx
    cases i with
    | zero =>
      rcases List.mem_cons.mp hx with h | h
      · exact Or.inr ⟨a, List.mem_cons_self _ _, h⟩
      · exact Or.inl (List.mem_cons_of_mem _ h)
    | succ n =>
      rcases List.mem_cons.mp hx with h | h
      · exact Or.inl (by rw [h]; exact List.mem_cons_self _ _)
      · rcases ih h with h' | ⟨y, hy, hxy⟩
        · exact Or.inl (List.mem_cons_of_mem _ h')
        · exact Or.inr ⟨y, List.mem_cons_of_mem _ hy, hxy⟩

lemma allHunksOk_setLastFile {st : ParseState} (f : FileChange → FileChange)
    (hf : ∀ fc, (f fc).hunks = fc.hunks) (hok : AllHunksOk st) :
    AllHunksOk (setLastFile st f) := by
  obtain ⟨cs0, loc⟩ := st
  cases cs0 with
  | nil => exact hok
  | cons c cs =>
    intro fc hfc h hh
    simp only [setLastFile] at hfc
    rcases mem_updateAt hfc with hmem | ⟨y, hy, rfl⟩
    · exact hok fc hmem h hh
    · rw [hf y] at hh
      exact hok y hy h hh

lemma allHunksOk_openHunk {st : ParseState} (h : Hunk) (hlines : h.lines = [])
    (hok : AllHunksOk st) : AllHunksOk (openHunk st h) := by
  unfold openHunk
  cases hg : st.changes.getLast? with
  | none => exact hok
  | some f =>
    intro fc hfc hk hhk
    rcases mem_updateAt hfc with hmem | ⟨y, hy, rfl⟩
    · exact hok fc hmem hk hhk
    · rcases List.mem_append.mp hhk with hk1 | hk1
      · exact hok y hy hk hk1
      · have : hk = h := by simpa using hk1
        subst this
        unfold HunkOk
        rw [hlines]
        trivial

lemma allHunksOk_appendHunkLine {st : ParseState} (line : List Char)
    (hok : AllHunksOk st) : AllHunksOk (appendHunkLine st line) := by
  unfold appendHunkLine
  cases hl : st.hunkLoc with
  | none => exact hok
  | some p =>
    obtain ⟨fi, hi⟩ := p
    intro fc hfc hk hhk
    rcases mem_updateAt hfc with hmem | ⟨y, hy, rfl⟩
    · exact hok fc hmem hk hhk
    · rcases mem_updateAt hhk with hkm | ⟨z, hz, rfl⟩
      · exact hok y hy hk hkm
      · exact hunkOk_appendLine z line (hok y hy z hz)

lemma allHunksOk_processLine {st : ParseState} (l : List Char) (hok : AllHunksOk st) :
    AllHunksOk (processLine st l) := by
  unfold processLine
  repeat' split
  all_goals
    first
    | exact hok
    | exact allHunksOk_setLastFile _ (fun fc => rfl) hok
    | exact allHunksOk_openHunk _ rfl hok
    | exact allHunksOk_appendHunkLine _ hok
    | (intro fc hfc h hh
       rcases List.mem_append.mp hfc with hmem | hmem
       · exact hok fc hmem h hh
       · have : fc.hunks = [] := by
           have : fc ∈ [({ filePath := _, oldFilePath := _, isDeleted := false
                           isNew := false, isRenamed := false, isBinary := false
                           hunks := [] } : FileChange)] := hmem
           simp at this
           rw [this]
         rw [this] at hh
         exact absurd hh (List.not_mem_nil h))

lemma allHunksOk_foldl (lines : List (List Char)) : ∀ st : ParseState, AllHunksOk st →
    AllHunksOk (lines.foldl processLine st) := by
  induction lines with
  | nil => intro st h; exact h
  | cons l ls ih => intro st h; exact ih _ (allHunksOk_processLine l h)

/-- Every hunk of every file produced by `parseDiff` obeys the numbering
discipline from its own header values. -/
lemma parse_hunks_numbered (s : String) :
    ∀ fc ∈ parseDiff s, ∀ h ∈ fc.hunks, linesNumberedFrom h.oldStart h.newStart h.lines := by
  have h0 : AllHunksOk { changes := [], hunkLoc := none } := by
    intro fc hfc
    exact absurd hfc (List.not_mem_nil fc)
  exact allHunksOk_foldl (splitNl (stripCarriageReturns s).data)
    { changes := [], hunkLoc := none } h0

lemma linesNumberedFrom_get : ∀ (ls : List Line) (a b : Nat),
    linesNumberedFrom a b ls →
    ∀ (i : Nat) (hi : i < ls.length),
      ((ls.get ⟨i, hi⟩).oldLineNumber =
        if (ls.get ⟨i, hi⟩).lineType == "context" || (ls.get ⟨i, hi⟩).lineType == "removed"
        then some (a + countOld (ls.take i)) else none)
      ∧ ((ls.get ⟨i, hi⟩).newLineNumber =
        if (ls.get ⟨i, hi⟩).lineType == "context" || (ls.get ⟨i, hi⟩).lineType == "added"
        then some (b + countNew (ls.take i)) else none) := by
  intro ls
  induction ls with
  | nil =>
    intro a b _ i hi
    exact absurd hi (Nat.not_lt_zero i)
  | cons x xs ih =>
    intro a b hnum i hi
    obtain ⟨hx1, hx2, hrest⟩ := hnum
    cases i with
    | zero =>
      simp only [List.get, List.take, countOld, countNew, Nat.add_zero]
      exact ⟨hx1, hx2⟩
    | succ n =>
      have hn : n < xs.length := Nat.lt_of_succ_lt_succ hi
      obtain ⟨ho, hh⟩ := ih _ _ hrest n hn
      constructor
      · rw [show (x :: xs).get ⟨n + 1, hi⟩ = xs.get ⟨n, hn⟩ from rfl, ho]
        rw [show (x :: xs).take (n + 1) = x :: xs.take n from rfl]
        rw [show countOld (x :: xs.take n) =
              (if x.lineType == "context" || x.lineType == "removed" then 1 else 0)
                + countOld (xs.take n) from rfl]
        rw [Nat.add_assoc]
      · rw [show (x :: xs).get ⟨n + 1, hi⟩ = xs.get ⟨n, hn⟩ from rfl, hh]
        rw [show (x :: xs).take (n + 1) = x :: xs.take n from rfl]
        rw [show countNew (x :: xs.take n) =
              (if x.lineType == "context" || x.lineType == "added" then 1 else 0)
                + countNew (xs.take n) from rfl]
        rw [Nat.add_assoc]

/-- Claim C1: for every hunk produced by `parseDiff`, the i-th appended line
carries `oldStart + (count of prior context/removed lines of the hunk)` as
`oldLineNumber` when its kind is context/removed and no old number otherwise,
and `newStart + (count of prior context/added lines)` as `newLineNumber` when
its kind is context/added and no new number otherwise. -/
theorem claim_C1_line_numbers (s : String) :
    ∀ fc ∈ parseDiff s, ∀ h ∈ fc.hunks, ∀ (i : Nat) (hi : i < h.lines.length),
      ((h.lines.get ⟨i, hi⟩).oldLineNumber =
        if (h.lines.get ⟨i, hi⟩).lineType == "context"
           || (h.lines.get ⟨i, hi⟩).lineType == "removed"
        then some (h.oldStart + countOld (h.lines.take i)) else none)
      ∧ ((h.lines.get ⟨i, hi⟩).newLineNumber =
        if (h.lines.get ⟨i, hi⟩).lineType == "context"
           || (h.lines.get ⟨i, hi⟩).lineType == "added"
        then some (h.newStart + countNew (h.lines.take i)) else none) := by
  intro fc hfc h hh i hi
  exact linesNumberedFrom_get h.lines h.oldStart h.newStart
    (parse_hunks_numbered s fc hfc h hh) i hi

/-- Claim C1, witness: in the spec's scenario the added line (index 2) gets
`newLineNumber = newStart + 2 = 11` and no old line number. -/
theorem claim_C1_line_numbers_witness :
    c1File ∈ parseDiff c1Diff
    ∧ c1Hunk ∈ c1File.hunks
    ∧ (c1Hunk.lines.get ⟨2, by decide⟩).newLineNumber = some 11
    ∧ (c1Hunk.lines.get ⟨2, by decide⟩).oldLineNumber = none :=
  ⟨by decide, by decide,
   ((claim_C1_line_numbers c1Diff c1File (by decide) c1Hunk (by decide) 2 (by decide)).2).trans
     (by decide),
   ((claim_C1_line_numbers c1Diff c1File (by decide) c1Hunk (by decide) 2 (by decide)).1).trans
     (by decide)⟩

/-- Claim C2, counterexample: while a hunk is open, the removed line with
content `"-- x"` (raw diff line `"--- x"`, which begins with `'-'`) is
consumed by the `---` file-path branch instead of being appended: the hunk's
line list stays empty and `oldFilePath` is overwritten with `"x"`. -/
theorem claim_C2_counterexample :
    parseDiff "diff --git a/f b/f\n@@ -1,2 +1,1 @@\n--- x" =
      [{ filePath := "f", oldFilePath := "x", isDeleted := false, isNew := false
         isRenamed := false, isBinary := false
         hunks := [{ oldStart := 1, oldLength := 2, newStart := 1, newLength := 1
                     context := "", lines := [] }] }] := by
  rfl

/-- Claim C2 (amended): while a hunk is open, every line beginning with
space/`+`/`-` that does not begin with `---` or `+++` is classified and
appended to the current hunk (and consumed by no other branch); lines
beginning with `---`/`+++` are instead consumed by the file-path branches. -/
theorem claim_C2_amended (st : ParseState) (fi hi : Nat) (c : Char) (rest : List Char)
    (hloc : st.hunkLoc = some (fi, hi))
    (hc : c = ' ' ∨ c = '+' ∨ c = '-')
    (hno : startsWithL ("---".toList) (c :: rest) = false)
    (hnp : startsWithL ("+++".toList) (c :: rest) = false) :
    processLine st (c :: rest) =
      { st with changes := updateAt st.changes fi (fun fc =>
          { fc with hunks := updateAt fc.hunks hi (fun h =>
              { h with lines := h.lines ++ [mkHunkLine h (c :: rest)] }) }) } := by
  have happ : appendHunkLine st (c :: rest) =
      { st with changes := updateAt st.changes fi (fun fc =>
          { fc with hunks := updateAt fc.hunks hi (fun h =>
              { h with lines := h.lines ++ [mkHunkLine h (c :: rest)] }) }) } := by
    unfold appendHunkLine
    rw [hloc]
  rcases hc with rfl | rfl | rfl
  · unfold processLine
    rw [show startsWithL ("diff --git".toList) (' ' :: rest) = false from rfl,
        show startsWithL ("new file mode".toList) (' ' :: rest) = false from rfl,
        show startsWithL ("deleted file mode".toList) (' ' :: rest) = false from rfl,
        show startsWithL ("similarity index".toList) (' ' :: rest) = false from rfl,
        show startsWithL ("rename from".toList) (' ' :: rest) = false from rfl,
        show startsWithL ("rename to".toList) (' ' :: rest) = false from rfl,
        show matchBinary (' ' :: rest) = false from rfl,
        hno, hnp,
        show startsWithL ("@@".toList) (' ' :: rest) = false from rfl,
        hloc,
        show startsWithL (" ".toList) (' ' :: rest) = true from rfl]
    rw [hloc] at happ
    simpa using happ
  · unfold processLine
    rw [show startsWithL ("diff --git".toList) ('+' :: rest) = false from rfl,
        show startsWithL ("new file mode".toList) ('+' :: rest) = false from rfl,
        show startsWithL ("deleted file mode".toList) ('+' :: rest) = false from rfl,
        show startsWithL ("similarity index".toList) ('+' :: rest) = false from rfl,
        show startsWithL ("rename from".toList) ('+' :: rest) = false from rfl,
        show startsWithL ("rename to".toList) ('+' :: rest) = false from rfl,
        show matchBinary ('+' :: rest) = false from rfl,
        hno, hnp,
        show startsWithL ("@@".toList) ('+' :: rest) = false from rfl,
        hloc,
        show startsWithL ("+".toList) ('+' :: rest) = true from rfl]
    rw [hloc] at happ
    simpa using happ
  · unfold processLine
    rw [show startsWithL ("diff --git".toList) ('-' :: rest) = false from rfl,
        show startsWithL ("new file mode".toList) ('-' :: rest) = false from rfl,
        show startsWithL ("deleted file mode".toList) ('-' :: rest) = false from rfl,
        show startsWithL ("similarity index".toList) ('-' :: rest) = false from rfl,
        show startsWithL ("rename from".toList) ('-' :: rest) = false from rfl,
        show startsWithL ("rename to".toList) ('-' :: rest) = false from rfl,
        show matchBinary ('-' :: rest) = false from rfl,
        hno, hnp,
        show startsWithL ("@@".toList) ('-' :: rest) = false from rfl,
        hloc,
        show startsWithL ("-".toList) ('-' :: rest) = true from rfl]
    rw [hloc] at happ
    simpa using happ

/-- Claim C2, witness: with a hunk open, the context line `" x"` is appended
to the current hunk by the content branch. -/
theorem claim_C2_amended_witness :
    processLine c2St [' ', 'x'] =
      { c2St with changes := updateAt c2St.changes 0 (fun fc =>
          { fc with hunks := updateAt fc.hunks 0 (fun h =>
              { h with lines := h.lines ++ [mkHunkLine h [' ', 'x']] }) }) } :=
  claim_C2_amended c2St 0 0 ' ' ['x'] rfl (Or.inl rfl) (by decide) (by decide)

/-- Claim C4, counterexample: the header `diff --git a/ b/` matches the
file-header pattern with an empty b-side path, so a record with an empty
`filePath` is created, retained, and never discarded. -/
theorem claim_C4_counterexample :
    (parseDiff "diff --git a/ b/").map FileChange.filePath = [""] := by
  rfl

lemma updateAt_length : ∀ (l : List α) (i : Nat) (f : α → α),
    (updateAt l i f).length = l.length := by
  intro l
  induction l with
  | nil => intro i f; rfl
  | cons a as ih =>
    intro i f
    cases i with
    | zero => rfl
    | succ n => simp [updateAt, ih]

lemma setLastFile_changes_length (st : ParseState) (f : FileChange → FileChange) :
    (setLastFile st f).changes.length = st.changes.length := by
  obtain ⟨cs, loc⟩ := st
  cases cs with
  | nil => rfl
  | cons c cs' => simp [setLastFile, updateAt_length]

lemma openHunk_changes_length (st : ParseState) (h : Hunk) :
    (openHunk st h).changes.length = st.changes.length := by
  unfold openHunk
  cases hg : st.changes.getLast? with
  | none => rfl
  | some f => simp [updateAt_length]

lemma appendHunkLine_changes_length (st : ParseState) (line : List Char) :
    (appendHunkLine st line).changes.length = st.changes.length := by
  unfold appendHunkLine
  cases hl : st.hunkLoc with
  | none => rfl
  | some p =>
    obtain ⟨fi, hi⟩ := p
    simp [updateAt_length]

lemma startsWithL_of_append (p q l : List Char) :
    startsWithL (p ++ q) l = true → startsWithL p l = true := by
  induction p generalizing l with
  | nil => intro _; rfl
  | cons a ps ih =>
    intro h
    cases l with
    | nil => simp [startsWithL] at h
    | cons c cs =>
      simp only [List.cons_append, startsWithL, Bool.and_eq_true] at h ⊢
      exact ⟨h.1, ih cs h.2⟩

lemma processLine_changes_length (st : ParseState) (l : List Char) :
    (processLine st l).changes.length =
      st.changes.length + (if (matchDiffGit l).isSome then 1 else 0) := by
  by_cases hdg : startsWithL ("diff --git".toList) l = true
  · unfold processLine
    rw [if_pos hdg]
    cases hm : matchDiffGit l with
    | some p =>
      obtain ⟨old, new⟩ := p
      simp
    | none => simp
  · have hnone : matchDiffGit l = none := by
      unfold matchDiffGit
      rw [if_neg]
      intro hlong
      exact hdg (startsWithL_of_append ("diff --git".toList) (" a/".toList) l
        (by rw [show ("diff --git".toList ++ " a/".toList) = ("diff --git a/".toList) from rfl]
            exact hlong))
    rw [hnone]
    simp only [Option.isSome_none, Bool.false_eq_true, if_false, Nat.add_zero]
    unfold processLine
    rw [if_neg hdg]
    repeat' split
    all_goals
      first
      | rfl
      | exact setLastFile_changes_length st _
      | exact openHunk_changes_length st _
      | exact appendHunkLine_changes_length st _

lemma foldl_changes_length (lines : List (List Char)) : ∀ st : ParseState,
    (lines.foldl processLine st).changes.length =
      st.changes.length + lines.countP (fun l => (matchDiffGit l).isSome) := by
  induction lines with
  | nil => intro st; simp
  | cons l ls ih =>
    intro st
    rw [List.foldl_cons, ih, List.countP_cons, processLine_changes_length]
    by_cases hm : (matchDiffGit l).isSome
    · simp [hm]
      omega
    · simp [hm]

/-- Claim C4 (amended): `parseDiff` creates exactly one record per input line
matching the `diff --git a/<old> b/<new>` header pattern and never discards
any; `filePath` is the trimmed `<new>` capture (possibly replaced by a later
`+++` path) and can be empty — as for `diff --git a/ b/` — rather than
always non-empty. -/
theorem claim_C4_amended (s : String) :
    (parseDiff s).length =
      (splitNl (stripCarriageReturns s).data).countP (fun l => (matchDiffGit l).isSome) := by
  have := foldl_changes_length (splitNl (stripCarriageReturns s).data)
    { changes := [], hunkLoc := none }
  simpa [parseDiff] using this

/-- Claim C3, counterexample: a hunk starting at new line 50 whose first line
is an added line yields a block with `startLine = 47` (`max(1, 50 - 3)`),
although the first retained code entry has line number 50: `startLine` is not
the line number of the first retained entry. -/
theorem claim_C3_counterexample :
    extractChangedCodeWithContext (parseDiff "diff --git a/f b/f\n@@ -50,0 +50,1 @@\n+x") 3 =
      [{ filePath := "f", startLine := some 47, endLine := some 50
         code := [{ content := "x", lineNumber := 50, isChange := true }]
         hasChanges := true }] := by
  rfl

lemma find?_append_left {p : CodeEntry → Bool} {l₁ : List CodeEntry} {e : CodeEntry}
    (l₂ : List CodeEntry) (h : List.find? p l₁ = some e) :
    List.find? p (l₁ ++ l₂) = some e := by
  rw [List.find?_append, h]
  rfl

lemma find?_append_nonmatch {p : CodeEntry → Bool} {l₂ : List CodeEntry}
    (l₁ : List CodeEntry) (h2 : ∀ x ∈ l₂, p x = false) :
    List.find? p (l₁ ++ l₂) = List.find? p l₁ := by
  rw [List.find?_append]
  cases hf : List.find? p l₁ with
  | some e => rfl
  | none =>
    have : List.find? p l₂ = none := by
      rw [List.find?_eq_none]
      intro x hx
      simp [h2 x hx]
    rw [this]
    rfl

lemma closeScan_spec (cl : Nat) : ∀ (l : List CodeEntry) (cnt c : Nat),
    closeScan cl l cnt = some c →
    cnt < c ∧ cl ≤ c ∧ c - cnt ≤ l.length ∧ ∀ x ∈ l.take (c - cnt), x.isChange = false := by
  intro l
  induction l with
  | nil => intro cnt c h; simp [closeScan] at h
  | cons e rest ih =>
    intro cnt c h
    unfold closeScan at h
    by_cases he : e.isChange = true
    · rw [if_pos he] at h
      exact absurd h (by simp)
    · rw [if_neg he] at h
      have he' : e.isChange = false := by
        cases hx : e.isChange
        · rfl
        · exact absurd hx he
      by_cases hge : cl ≤ cnt + 1
      · rw [if_pos hge] at h
        have hc : cnt + 1 = c := by
          injection h
        refine ⟨by omega, by omega, by simp; omega, ?_⟩
        intro x hx
        rw [show c - cnt = 1 from by omega] at hx
        have : x = e := by simpa using hx
        rw [this]
        exact he'
      · rw [if_neg hge] at h
        obtain ⟨h1, h2, h3, h4⟩ := ih (cnt + 1) c h
        refine ⟨by omega, by omega, by simp; omega, ?_⟩
        intro x hx
        rw [show c - cnt = (c - (cnt + 1)) + 1 from by omega] at hx
        rw [show List.take (c - (cnt + 1) + 1) (e :: rest)
              = e :: List.take (c - (cnt + 1)) rest from rfl] at hx
        rcases List.mem_cons.mp hx with rfl | hx
        · exact he'
        · exact h4 x hx

lemma drop_nonchange_of_closeScan {cl : Nat} {code : List CodeEntry} {c : Nat}
    (hscan : closeScan cl code.reverse 0 = some c) :
    cl ≤ c ∧ c ≤ code.length
    ∧ ∀ x ∈ code.drop (code.length - c + cl), x.isChange = false := by
  obtain ⟨-, hclc, hlen, hall⟩ := closeScan_spec cl code.reverse 0 c hscan
  rw [List.length_reverse] at hlen
  simp only [Nat.sub_zero] at hlen hall
  refine ⟨hclc, hlen, ?_⟩
  intro x hx
  set t := code.length - c + cl with ht
  by_cases htl : t < code.length
  · have hrev : (List.take (code.length - t) code.reverse).reverse = List.drop t code := by
      rw [List.reverse_take, List.length_reverse, List.reverse_reverse]
      congr 1
      omega
    have hx2 : x ∈ List.take (code.length - t) code.reverse := by
      rw [← List.mem_reverse, hrev]
      exact hx
    have hsub : code.length - t ≤ c := by omega
    have hx3 : x ∈ List.take c code.reverse := by
      have := List.take_take (code.length - t) c code.reverse
      rw [Nat.min_eq_left hsub] at this
      rw [← this] at hx2
      exact List.take_subset _ _ hx2
    exact hall x hx3
  · rw [List.drop_eq_nil_of_le (by omega)] at hx
    exact absurd hx (List.not_mem_nil x)

lemma endBlockCheck_inv {fp : String} {cl : Nat} {st : ExtState}
    (hcur : BlockOk cl st.currentBlock)
    (hblocks : ∀ b ∈ st.codeBlocks, BlockOk cl b) :
    ExtInv fp cl (endBlockCheck fp cl st) ∨ endBlockCheck fp cl st = st := by
  cases hscan : closeScan cl st.currentBlock.code.reverse 0 with
  | none =>
    right
    simp only [endBlockCheck, hscan]
  | some c =>
    left
    obtain ⟨hclc, hclen, hdrop⟩ := drop_nonchange_of_closeScan hscan
    obtain ⟨hne, hend, e, hfind, hstart⟩ := hcur
    by_cases htrim : st.currentBlock.code.length - c + cl < st.currentBlock.code.length
    · have hfind' : (st.currentBlock.code.take (st.currentBlock.code.length - c + cl)).find?
          (fun x => x.isChange) = some e := by
        rw [show st.currentBlock.code
              = st.currentBlock.code.take (st.currentBlock.code.length - c + cl)
                ++ st.currentBlock.code.drop (st.currentBlock.code.length - c + cl) from
            (List.take_append_drop _ _).symm,
          find?_append_nonmatch _ hdrop] at hfind
        exact hfind
      have hne' : st.currentBlock.code.take (st.currentBlock.code.length - c + cl) ≠ [] := by
        intro hnil
        rw [hnil] at hfind'
        simp at hfind'
      obtain ⟨z, hz⟩ := Option.isSome_iff_exists.mp (List.getLast?_isSome.mpr hne')
      have hred : endBlockCheck fp cl st =
          { inChangeBlock := false, currentBlock := emptyBlock fp, contextBuffer := []
            codeBlocks := st.codeBlocks ++
              (if ((st.currentBlock.hasChanges
                    && !(st.currentBlock.code.take
                          (st.currentBlock.code.length - c + cl)).isEmpty) : Bool)
               then [{ st.currentBlock with
                        code := st.currentBlock.code.take (st.currentBlock.code.length - c + cl)
                        endLine := some z.lineNumber }]
               else []) } := by
        simp only [endBlockCheck, hscan]
        rw [if_pos htrim]
        simp only [hz]
      rw [hred]
      refine ⟨fun _ => rfl, fun habs => by simp at habs, ?_⟩
      intro b hb
      rcases List.mem_append.mp hb with hb | hb
      · exact hblocks b hb
      · by_cases hguard : ((st.currentBlock.hasChanges
            && !(st.currentBlock.code.take
                  (st.currentBlock.code.length - c + cl)).isEmpty) : Bool) = true
        · rw [if_pos hguard] at hb
          have hbeq : b = { st.currentBlock with
              code := st.currentBlock.code.take (st.currentBlock.code.length - c + cl)
              endLine := some z.lineNumber } := by
            simpa using hb
          rw [hbeq]
          exact ⟨hne', by simp [hz], e, hfind', hstart⟩
        · rw [if_neg hguard] at hb
          exact absurd hb (List.not_mem_nil b)
    · have hred : endBlockCheck fp cl st =
          { inChangeBlock := false, currentBlock := emptyBlock fp, contextBuffer := []
            codeBlocks := st.codeBlocks ++
              (if ((st.currentBlock.hasChanges && !st.currentBlock.code.isEmpty) : Bool)
               then [st.currentBlock] else []) } := by
        simp only [endBlockCheck, hscan]
        rw [if_neg htrim]
      rw [hred]
      refine ⟨fun _ => rfl, fun habs => by simp at habs, ?_⟩
      intro b hb
      rcases List.mem_append.mp hb with hb | hb
      · exact hblocks b hb
      · by_cases hguard : ((st.currentBlock.hasChanges && !st.currentBlock.code.isEmpty) : Bool) = true
        · rw [if_pos hguard] at hb
          have hbeq : b = st.currentBlock := by simpa using hb
          rw [hbeq]
          exact ⟨hne, hend, e, hfind, hstart⟩
        · rw [if_neg hguard] at hb
          exact absurd hb (List.not_mem_nil b)

lemma blockOk_push {cl : Nat} {b : CodeBlock} (hb : BlockOk cl b)
    (content : String) (n : Nat) (ic : Bool) :
    BlockOk cl { b with
      code := b.code ++ [{ content := content, lineNumber := n, isChange := ic }]
      endLine := some n } := by
  obtain ⟨hne, hend, e, hfind, hstart⟩ := hb
  refine ⟨by simp, ?_, e, find?_append_left _ hfind, hstart⟩
  rw [show ({ b with
      code := b.code ++ [{ content := content, lineNumber := n, isChange := ic }]
      endLine := some n } : CodeBlock).code
    = b.code ++ [{ content := content, lineNumber := n, isChange := ic }] from rfl]
  rw [List.getLast?_concat]
  rfl

lemma blockOk_start_push {fp : String} {cl : Nat} {st : ExtState}
    (hcur : st.currentBlock = emptyBlock fp) (content : String) (n : Nat) {ic : Bool}
    (hic : ic = true) :
    BlockOk cl (extPush (extStart cl st n) content n ic).currentBlock := by
  have hcode : (extPush (extStart cl st n) content n ic).currentBlock.code =
      st.currentBlock.code ++
        st.contextBuffer.map (fun b =>
          ({ content := b.content, lineNumber := b.lineNumber, isChange := false } : CodeEntry))
      ++ [{ content := content, lineNumber := n, isChange := ic }] := rfl
  refine ⟨?_, ?_, ?_⟩
  · rw [hcode]
    simp
  · rw [show (extPush (extStart cl st n) content n ic).currentBlock.endLine = some n from rfl]
    rw [hcode, List.getLast?_concat]
    rfl
  · refine ⟨{ content := content, lineNumber := n, isChange := ic }, ?_, ?_⟩
    · rw [hcode, hcur]
      rw [show (emptyBlock fp).code ++
            st.contextBuffer.map (fun b =>
              ({ content := b.content, lineNumber := b.lineNumber
                 isChange := false } : CodeEntry))
          = st.contextBuffer.map (fun b =>
              ({ content := b.content, lineNumber := b.lineNumber
                 isChange := false } : CodeEntry)) from by simp [emptyBlock]]
      rw [List.find?_append]
      rw [show List.find? (fun x => x.isChange)
            (st.contextBuffer.map (fun b =>
              ({ content := b.content, lineNumber := b.lineNumber
                 isChange := false } : CodeEntry))) = none from by
        rw [List.find?_eq_none]
        intro x hx
        obtain ⟨y, -, rfl⟩ := List.mem_map.mp hx
        simp]
      simp [hic]
    · rw [show (extPush (extStart cl st n) content n ic).currentBlock.startLine
          = some (max 1 (n - cl)) from rfl]

lemma extStep_inv {fp : String} {cl : Nat} {st : ExtState} (line : Line)
    (hinv : ExtInv fp cl st) : ExtInv fp cl (extStep fp cl st line) := by
  obtain ⟨h1, h2, h3⟩ := hinv
  cases hn : line.newLineNumber with
  | none =>
    rw [show extStep fp cl st line = st from by simp only [extStep, hn]]
    exact ⟨h1, h2, h3⟩
  | some n =>
    simp only [extStep, hn]
    split
    case isTrue hstart =>
      rw [Bool.and_eq_true] at hstart
      obtain ⟨hor, hnb⟩ := hstart
      have hicb : st.inChangeBlock = false := by simpa using hnb
      have hcurE := h1 hicb
      have hctx : (line.lineType == "context") = false := by
        rw [Bool.or_eq_true] at hor
        rcases hor with h | h
        · rw [eq_of_beq h]; rfl
        · rw [eq_of_beq h]; rfl
      rw [if_pos (show (extStart cl st n).inChangeBlock = true from rfl)]
      rw [if_neg (show ¬((line.lineType == "context"
          && (extPush (extStart cl st n) (stripNlEnd line.content) n
                (line.lineType == "added" || line.lineType == "removed")).inChangeBlock) = true)
        from by simp [hctx])]
      refine ⟨fun habs => ?_, fun _ => ?_, ?_⟩
      · simp [extPush, extStart] at habs
      · exact blockOk_start_push hcurE _ n hor
      · intro b hb
        exact h3 b hb
    case isFalse hstart =>
      by_cases hicb : st.inChangeBlock = true
      · rw [if_pos hicb]
        have hpush : BlockOk cl ((extPush st (stripNlEnd line.content) n
            (line.lineType == "added" || line.lineType == "removed")).currentBlock) :=
          blockOk_push (h2 hicb) _ _ _
        split
        next hctx =>
          rcases @endBlockCheck_inv fp cl _ hpush (fun b hb => h3 b hb) with hok | heqq
          · exact hok
          · rw [heqq]
            refine ⟨fun habs => ?_, fun _ => hpush, fun b hb => h3 b hb⟩
            · rw [show (extPush st (stripNlEnd line.content) n
                  (line.lineType == "added" || line.lineType == "removed")).inChangeBlock
                = st.inChangeBlock from rfl] at habs
              rw [habs] at hicb
              exact absurd hicb (by simp)
        next hctx =>
          refine ⟨fun habs => ?_, fun _ => hpush, fun b hb => h3 b hb⟩
          · rw [show (extPush st (stripNlEnd line.content) n
                (line.lineType == "added" || line.lineType == "removed")).inChangeBlock
              = st.inChangeBlock from rfl] at habs
            rw [habs] at hicb
            exact absurd hicb (by simp)
      · have hicb' : st.inChangeBlock = false := by
          cases hx : st.inChangeBlock
          · rfl
          · exact absurd hx hicb
        rw [if_neg hicb]
        rw [if_neg (show ¬((line.lineType == "context"
            && (extBuffer cl st (stripNlEnd line.content) n).inChangeBlock) = true) from by
          simp [extBuffer, hicb'])]
        exact ⟨fun _ => h1 hicb', fun habs => absurd habs hicb, fun b hb => h3 b hb⟩

lemma extFold_inv (fp : String) (cl : Nat) (lines : List Line) :
    ∀ st : ExtState, ExtInv fp cl st →
      ExtInv fp cl (lines.foldl (extStep fp cl) st) := by
  induction lines with
  | nil => intro st h; exact h
  | cons l ls ih => intro st h; exact ih _ (extStep_inv l h)

lemma hunkBlocks_ok (fp : String) (cl : Nat) (lines : List Line) :
    ∀ b ∈ hunkBlocks fp cl lines, BlockOk cl b := by
  unfold hunkBlocks
  by_cases he : lines.isEmpty
  · rw [if_pos he]
    intro b hb
    exact absurd hb (List.not_mem_nil b)
  · rw [if_neg he]
    have hinv : ExtInv fp cl (lines.foldl (extStep fp cl)
        { inChangeBlock := false, currentBlock := emptyBlock fp
          contextBuffer := [], codeBlocks := [] }) := by
      apply extFold_inv
      exact ⟨fun _ => rfl, fun habs => by simp at habs,
             fun b hb => absurd hb (List.not_mem_nil b)⟩
    obtain ⟨g1, g2, g3⟩ := hinv
    intro b hb
    rcases List.mem_append.mp hb with hb | hb
    · exact g3 b hb
    · by_cases hguard : ((lines.foldl (extStep fp cl)
          { inChangeBlock := false, currentBlock := emptyBlock fp
            contextBuffer := [], codeBlocks := [] }).inChangeBlock
        && (lines.foldl (extStep fp cl)
          { inChangeBlock := false, currentBlock := emptyBlock fp
            contextBuffer := [], codeBlocks := [] }).currentBlock.hasChanges
        && !(lines.foldl (extStep fp cl)
          { inChangeBlock := false, currentBlock := emptyBlock fp
            contextBuffer := [], codeBlocks := [] }).currentBlock.code.isEmpty) = true
      · rw [if_pos hguard] at hb
        have hbe : b = (lines.foldl (extStep fp cl)
            { inChangeBlock := false, currentBlock := emptyBlock fp
              contextBuffer := [], codeBlocks := [] }).currentBlock := by
          simpa using hb
        rw [Bool.and_eq_true, Bool.and_eq_true] at hguard
        rw [hbe]
        exact g2 hguard.1.1
      · rw [if_neg hguard] at hb
        exact absurd hb (List.not_mem_nil b)

lemma innerFold_ok (fp : String) (cl : Nat) (hunks : List Hunk) :
    ∀ acc : List CodeBlock, (∀ b ∈ acc, BlockOk cl b) →
      ∀ b ∈ hunks.foldl (fun a h => a ++ hunkBlocks fp cl h.lines) acc, BlockOk cl b := by
  induction hunks with
  | nil => intro acc hacc b hb; exact hacc b hb
  | cons h hs ih =>
    intro acc hacc b hb
    refine ih _ ?_ b hb
    intro b' hb'
    rcases List.mem_append.mp hb' with hb' | hb'
    · exact hacc b' hb'
    · exact hunkBlocks_ok fp cl h.lines b' hb'

lemma outerFold_ok (cl : Nat) (changes : List FileChange) :
    ∀ acc : List CodeBlock, (∀ b ∈ acc, BlockOk cl b) →
      ∀ b ∈ changes.foldl (fun acc change =>
          if change.filePath == "" then acc
          else if change.isDeleted || change.isBinary then acc
          else acc ++ change.hunks.foldl
            (fun a h => a ++ hunkBlocks change.filePath cl h.lines) []) acc,
        BlockOk cl b := by
  induction changes with
  | nil => intro acc hacc b hb; exact hacc b hb
  | cons c cs ih =>
    intro acc hacc b hb
    rw [List.foldl_cons] at hb
    refine ih _ ?_ b hb
    by_cases hp : (c.filePath == "") = true
    · rw [if_pos hp]; exact hacc
    · rw [if_neg hp]
      by_cases hd : (c.isDeleted || c.isBinary) = true
      · rw [if_pos hd]; exact hacc
      · rw [if_neg hd]
        intro b' hb'
        rcases List.mem_append.mp hb' with hb' | hb'
        · exact hacc b' hb'
        · exact innerFold_ok c.filePath cl c.hunks []
            (fun x hx => absurd hx (List.not_mem_nil x)) b' hb'

/-- Claim C3 (amended): every block emitted by the extractor has retained
entries; `endLine` equals the new-file line number of the block's last
retained entry; and `startLine` equals `max 1 (firstChange − contextLines)`,
where `firstChange` is the line number of the block's first changed entry —
so `startLine` can precede the first retained entry's line number when fewer
than `contextLines` context lines are retained before the first change. -/
theorem claim_C3_amended (changes : List FileChange) (cl : Nat) :
    ∀ b ∈ extractChangedCodeWithContext changes cl,
      b.code ≠ []
      ∧ b.endLine = (b.code.getLast?).map (fun e => e.lineNumber)
      ∧ ∃ e, b.code.find? (fun x => x.isChange) = some e
          ∧ b.startLine = some (max 1 (e.lineNumber - cl)) := by
  intro b hb
  exact outerFold_ok cl changes [] (fun x hx => absurd hx (List.not_mem_nil x)) b hb

/-- Claim C3, witness: on the concrete one-line diff the emitted block is
non-empty and its `endLine` is its last retained entry's line number. -/
theorem claim_C3_amended_witness :
    c3Block ∈ extractChangedCodeWithContext
      (parseDiff "diff --git a/f b/f\n@@ -50,0 +50,1 @@\n+x") 3
    ∧ c3Block.code ≠ []
    ∧ c3Block.endLine = (c3Block.code.getLast?).map (fun e => e.lineNumber) :=
  ⟨by decide,
   (claim_C3_amended (parseDiff "diff --git a/f b/f\n@@ -50,0 +50,1 @@\n+x") 3 c3Block
     (by decide)).1,
   (claim_C3_amended (parseDiff "diff --git a/f b/f\n@@ -50,0 +50,1 @@\n+x") 3 c3Block
     (by decide)).2.1⟩

lemma linesNumbered_removed_none {a b : Nat} : ∀ {ls : List Line},
    linesNumberedFrom a b ls → ∀ l ∈ ls, l.lineType = "removed" → l.newLineNumber = none := by
  intro ls
  induction ls generalizing a b with
  | nil => intro _ l hl; exact absurd hl (List.not_mem_nil l)
  | cons x xs ih =>
    intro hnum l hl hlt
    obtain ⟨-, hx2, hrest⟩ := hnum
    rcases List.mem_cons.mp hl with rfl | hl
    · rw [hlt] at hx2
      simpa using hx2
    · exact ih hrest l hl hlt

lemma extStep_none {fp : String} {cl : Nat} {st : ExtState} {line : Line}
    (hn : line.newLineNumber = none) : extStep fp cl st line = st := by
  simp only [extStep, hn]

lemma fold_filter_removed (fp : String) (cl : Nat) : ∀ (lines : List Line),
    (∀ l ∈ lines, l.lineType = "removed" → l.newLineNumber = none) →
    ∀ st : ExtState, lines.foldl (extStep fp cl) st
      = (lines.filter (fun l => !(l.lineType == "removed"))).foldl (extStep fp cl) st := by
  intro lines
  induction lines with
  | nil => intro _ st; rfl
  | cons l ls ih =>
    intro hnone st
    by_cases hrem : (l.lineType == "removed") = true
    · rw [show (l :: ls).filter (fun l => !(l.lineType == "removed"))
          = ls.filter (fun l => !(l.lineType == "removed")) from by
        simp [List.filter_cons, hrem]]
      rw [List.foldl_cons]
      rw [extStep_none (hnone l (List.mem_cons_self _ _) (eq_of_beq hrem))]
      exact ih (fun x hx => hnone x (List.mem_cons_of_mem _ hx)) st
    · rw [show (l :: ls).filter (fun l => !(l.lineType == "removed"))
          = l :: ls.filter (fun l => !(l.lineType == "removed")) from by
        simp [List.filter_cons, hrem]]
      rw [List.foldl_cons, List.foldl_cons]
      exact ih (fun x hx => hnone x (List.mem_cons_of_mem _ hx)) _

lemma hunkBlocks_filter_removed (fp : String) (cl : Nat) (lines : List Line)
    (hnone : ∀ l ∈ lines, l.lineType = "removed" → l.newLineNumber = none) :
    hunkBlocks fp cl lines
      = hunkBlocks fp cl (lines.filter (fun l => !(l.lineType == "removed"))) := by
  unfold hunkBlocks
  by_cases he : lines.isEmpty
  · have : lines = [] := List.isEmpty_iff.mp he
    subst this
    rfl
  · rw [if_neg he]
    by_cases hef : (lines.filter (fun l => !(l.lineType == "removed"))).isEmpty
    · rw [if_pos hef]
      rw [fold_filter_removed fp cl lines hnone]
      rw [List.isEmpty_iff.mp hef]
      rfl
    · rw [if_neg hef]
      rw [fold_filter_removed fp cl lines hnone]

lemma innerFold_erase (fp : String) (cl : Nat) : ∀ (hunks : List Hunk),
    (∀ h ∈ hunks, ∀ l ∈ h.lines, l.lineType = "removed" → l.newLineNumber = none) →
    ∀ acc : List CodeBlock,
      hunks.foldl (fun a h => a ++ hunkBlocks fp cl h.lines) acc
        = (hunks.map (fun h =>
            { h with lines := h.lines.filter (fun l => !(l.lineType == "removed")) })).foldl
            (fun a h => a ++ hunkBlocks fp cl h.lines) acc := by
  intro hunks
  induction hunks with
  | nil => intro _ acc; rfl
  | cons h hs ih =>
    intro hnone acc
    rw [List.map_cons, List.foldl_cons, List.foldl_cons]
    rw [show ({ h with lines := h.lines.filter (fun l => !(l.lineType == "removed")) } : Hunk).lines
        = h.lines.filter (fun l => !(l.lineType == "removed")) from rfl]
    rw [← hunkBlocks_filter_removed fp cl h.lines (hnone h (List.mem_cons_self _ _))]
    exact ih (fun x hx => hnone x (List.mem_cons_of_mem _ hx)) _

lemma outerFold_erase (cl : Nat) : ∀ (changes : List FileChange),
    (∀ fc ∈ changes, ∀ h ∈ fc.hunks, ∀ l ∈ h.lines,
      l.lineType = "removed" → l.newLineNumber = none) →
    ∀ acc : List CodeBlock,
      changes.foldl (fun acc change =>
          if change.filePath == "" then acc
          else if change.isDeleted || change.isBinary then acc
          else acc ++ change.hunks.foldl
            (fun a h => a ++ hunkBlocks change.filePath cl h.lines) []) acc
        = (eraseRemovedLines changes).foldl (fun acc change =>
          if change.filePath == "" then acc
          else if change.isDeleted || change.isBinary then acc
          else acc ++ change.hunks.foldl
            (fun a h => a ++ hunkBlocks change.filePath cl h.lines) []) acc := by
  intro changes
  induction changes with
  | nil => intro _ acc; rfl
  | cons c cs ih =>
    intro hnone acc
    rw [show eraseRemovedLines (c :: cs)
        = ({ c with hunks := c.hunks.map (fun h =>
            { h with lines := h.lines.filter (fun l => !(l.lineType == "removed")) }) })
          :: eraseRemovedLines cs from rfl]
    rw [List.foldl_cons, List.foldl_cons]
    rw [← ih (fun x hx => hnone x (List.mem_cons_of_mem _ hx))]
    congr 1
    by_cases hp : (c.filePath == "") = true
    · rw [if_pos hp, if_pos hp]
    · rw [if_neg hp, if_neg hp]
      by_cases hd : (c.isDeleted || c.isBinary) = true
      · rw [if_pos hd, if_pos hd]
      · rw [if_neg hd, if_neg hd]
        congr 1
        exact innerFold_erase c.filePath cl c.hunks (hnone c (List.mem_cons_self _ _)) []

lemma extStep_quiescent {fp : String} {cl : Nat} {st : ExtState} (line : Line)
    (hicb : st.inChangeBlock = false)
    (hrm : line.lineType = "removed" → line.newLineNumber = none)
    (hna : ¬(line.lineType = "added")) :
    (extStep fp cl st line).inChangeBlock = false
    ∧ (extStep fp cl st line).codeBlocks = st.codeBlocks := by
  cases hn : line.newLineNumber with
  | none => rw [extStep_none hn]; exact ⟨hicb, rfl⟩
  | some n =>
    have hnr : ¬(line.lineType = "removed") := by
      intro h
      rw [hrm h] at hn
      exact Option.noConfusion hn
    have hor : (line.lineType == "added" || line.lineType == "removed") = false := by
      have h1 : (line.lineType == "added") = false := by
        cases hx : line.lineType == "added"
        · rfl
        · exact absurd (eq_of_beq hx) hna
      have h2 : (line.lineType == "removed") = false := by
        cases hx : line.lineType == "removed"
        · rfl
        · exact absurd (eq_of_beq hx) hnr
      rw [h1, h2]
      rfl
    simp only [extStep, hn]
    rw [if_neg (show ¬(((line.lineType == "added" || line.lineType == "removed")
        && !st.inChangeBlock) = true) from by simp [hor])]
    rw [if_neg (show ¬(st.inChangeBlock = true) from by simp [hicb])]
    rw [if_neg (show ¬((line.lineType == "context"
        && (extBuffer cl st (stripNlEnd line.content) n).inChangeBlock) = true) from by
      simp [extBuffer, hicb])]
    exact ⟨hicb, rfl⟩

lemma quiescent_fold (fp : String) (cl : Nat) : ∀ (lines : List Line),
    (∀ l ∈ lines, l.lineType = "removed" → l.newLineNumber = none) →
    (∀ l ∈ lines, ¬(l.lineType = "added")) →
    ∀ st : ExtState, st.inChangeBlock = false →
    (lines.foldl (extStep fp cl) st).inChangeBlock = false
    ∧ (lines.foldl (extStep fp cl) st).codeBlocks = st.codeBlocks := by
  intro lines
  induction lines with
  | nil => intro _ _ st hicb; exact ⟨hicb, rfl⟩
  | cons l ls ih =>
    intro hrm hna st hicb
    rw [List.foldl_cons]
    obtain ⟨hs1, hs2⟩ := extStep_quiescent l hicb
      (hrm l (List.mem_cons_self _ _)) (hna l (List.mem_cons_self _ _))
    obtain ⟨hf1, hf2⟩ := ih (fun x hx => hrm x (List.mem_cons_of_mem _ hx))
      (fun x hx => hna x (List.mem_cons_of_mem _ hx)) _ hs1
    exact ⟨hf1, hf2.trans hs2⟩

lemma hunkBlocks_no_added (fp : String) (cl : Nat) (lines : List Line)
    (hnone : ∀ l ∈ lines, l.lineType = "removed" → l.newLineNumber = none)
    (hnoadd : ∀ l ∈ lines, ¬(l.lineType = "added")) :
    hunkBlocks fp cl lines = [] := by
  unfold hunkBlocks
  by_cases he : lines.isEmpty
  · rw [if_pos he]
  · rw [if_neg he]
    obtain ⟨hf1, hf2⟩ := quiescent_fold fp cl lines hnone hnoadd
      { inChangeBlock := false, currentBlock := emptyBlock fp
        contextBuffer := [], codeBlocks := [] } rfl
    simp [hf1, hf2]

/-- Claim C9: in `parseDiff` output, removed-kind lines carry no
`newLineNumber` and are skipped by the extractor before the block-start test,
so the extractor's result is unchanged when all removed lines are erased from
the hunks (they never appear in any block), and a hunk whose only changes are
removals (any amount of context around them) yields no blocks at all. -/
theorem claim_C9_removed_invisible (s : String) (cl : Nat) :
    extractChangedCodeWithContext (parseDiff s) cl
      = extractChangedCodeWithContext (eraseRemovedLines (parseDiff s)) cl
    ∧ ∀ fc ∈ parseDiff s, ∀ h ∈ fc.hunks,
        (∀ l ∈ h.lines, ¬(l.lineType = "added")) →
        hunkBlocks fc.filePath cl h.lines = [] := by
  have hnone : ∀ fc ∈ parseDiff s, ∀ h ∈ fc.hunks, ∀ l ∈ h.lines,
      l.lineType = "removed" → l.newLineNumber = none := by
    intro fc hfc h hh l hl
    exact linesNumbered_removed_none (parse_hunks_numbered s fc hfc h hh) l hl
  constructor
  · unfold extractChangedCodeWithContext
    exact outerFold_erase cl (parseDiff s) hnone []
  · intro fc hfc h hh hnoadd
    exact hunkBlocks_no_added fc.filePath cl h.lines (hnone fc hfc h hh) hnoadd

/-- Claim C9, witness: the removal-only hunk of `c9Diff` yields no blocks,
and erasure of removed lines leaves the extractor's output unchanged. -/
theorem claim_C9_removed_invisible_witness :
    extractChangedCodeWithContext (parseDiff c9Diff) 3
      = extractChangedCodeWithContext (eraseRemovedLines (parseDiff c9Diff)) 3
    ∧ hunkBlocks c9File.filePath 3 c9Hunk.lines = [] :=
  ⟨(claim_C9_removed_invisible c9Diff 3).1,
   (claim_C9_removed_invisible c9Diff 3).2 c9File (by decide) c9Hunk (by decide) (by decide)⟩
